import Mathlib

/-!
# commandtree

A shallow embedding of `CommandTree.go` and `errors.go` (package `commandtree`) and the
properties of registration, resolution and dispatch proved about it.

Modelling conventions

* A Go `map[string]T` is a value of `GoMap T`: `none` is the nil map, `some es` an allocated map
  whose entries are listed in `es` (`es` also fixes one enumeration order for `range`; where two
  enumerations of one map follow each other, each has an order of its own, see `setdefaultsIn`).
* `*Command` and `*Variables` fields become values; a nil pointer or nil function is `none`.
* A `*string` destination is an address into a `Store` of string cells.
* An action is a function of the argument list and the store; every invocation made by the
  dispatcher is recorded in the `calls` log of the `World`.
* A function that mutates its receiver returns the new receiver next to its result.
* A run-time panic is a result of its own (`panic`, or `none` for `Variables.String`).
* The tokenizer `qsplit.Split` is a parameter of `Execute`.
* The text of `Help` is built as `fmt.Fprintf` builds it; the verb `%-Nv` pads with blanks.
-/

namespace commandtree

/-! ## errors.go and `MissingValueError` -/

/-- Error values. The first three are the error types of the package; `external` stands for any
error value produced outside of it (by an action or by the tokenizer). -/
inductive Error where
  | DuplicateCommandError (Command : String)
  | NoSuchCommandError (Command : String)
  | MissingValueError (label : String)
  | external (msg : String)
  deriving DecidableEq, Repr

/-! ## Go maps -/

/-- Go map with string keys: `none` is the nil map. -/
abbrev GoMap (α : Type) := Option (List (String × α))

/-- Entry lookup in the entry list of an allocated map. -/
def entriesGet {α : Type} : List (String × α) → String → Option α
  | [], _ => none
  | (k', v) :: rest, k => if k' = k then some v else entriesGet rest k

/-- Entry assignment in the entry list of an allocated map: replaces the entry of an existing
key, adds an entry for a new key. -/
def entriesSet {α : Type} : List (String × α) → String → α → List (String × α)
  | [], k, v => [(k, v)]
  | (k', v') :: rest, k, v =>
    if k' = k then (k, v) :: rest else (k', v') :: entriesSet rest k v

/-- The entries of a map; a nil map has none. -/
def GoMap.entries {α : Type} (m : GoMap α) : List (String × α) :=
  match m with
  | none => []
  | some es => es

/-- The two-valued index expression `v, ok := m[k]`: `none` when `ok` is false. Reading a nil map
finds nothing. -/
def GoMap.find {α : Type} (m : GoMap α) (k : String) : Option α :=
  entriesGet m.entries k

/-- The value of `len(m)`. -/
def GoMap.len {α : Type} (m : GoMap α) : Nat :=
  m.entries.length

/-! ## Parameters -/

/-- Address of a caller-owned string variable. -/
abbrev Addr := Nat

/-- Contents of the caller-owned string variables. -/
abbrev Store := Addr → String

/-- The assignment `(*a) = v`. -/
def Store.write (s : Store) (a : Addr) (v : String) : Store :=
  fun b => if b = a then v else s b

structure stringparameter where
  label : String
  defaultval : String
  description : String
  dest : Addr
  deriving DecidableEq

/-- The interface `parameter`; `stringparameter` is its only implementation, and since its
methods are unexported no other package can add one. -/
abbrev parameter := stringparameter

def stringparameter.parse (x : stringparameter) (words : List String) (s : Store) :
    Except Error (List String) × Store :=
  match words with
  | [] => (.error (.MissingValueError x.label), s)
  | w :: rest => (.ok rest, Store.write s x.dest w)

def stringparameter.setdefault (x : stringparameter) (s : Store) : Store :=
  Store.write s x.dest x.defaultval

structure Variables where
  parameters : GoMap parameter

/-- Ranges over the entries in the order of the entry list. One call of `setdefaults` is this
fold for some arrangement of the entries; for calls in succession, whose enumeration orders may
differ, see `setdefaultsIn`. -/
def Variables.setdefaults (x : Variables) (s : Store) : Store :=
  x.parameters.entries.foldl (fun s e => e.2.setdefault s) s

def Parameters : Variables :=
  { parameters := some [] }

/-- Assignment into a nil map panics: `none`. -/
def Variables.String (x : Variables) (label defaultval description : String) (ref : Addr) :
    Option Variables :=
  match x.parameters with
  | none => none
  | some es =>
    some { parameters := some (entriesSet es label
      { label := label, defaultval := defaultval, description := description, dest := ref }) }

/-! ## Commands -/

/-- The type `Action`: the error it returns and the store it leaves. -/
abbrev Action := List String → Store → Option Error × Store

/-- The struct `Command`; the fields are, in order, `Command`, `Parameters`, `Action`,
`Description`, `Usage`, `subcommands`. -/
inductive Command where
  | mk (name : String) (params : Option Variables) (action : Option Action)
      (description : String) (usage : String) (subs : Option (List (String × Command)))

abbrev CommandMap := GoMap Command

set_option linter.dupNamespace false

def Command.Command : commandtree.Command → String
  | .mk name _ _ _ _ _ => name

def Command.Parameters : commandtree.Command → Option Variables
  | .mk _ params _ _ _ _ => params

def Command.Action : commandtree.Command → Option commandtree.Action
  | .mk _ _ action _ _ _ => action

def Command.Description : commandtree.Command → String
  | .mk _ _ _ description _ _ => description

def Command.Usage : commandtree.Command → String
  | .mk _ _ _ _ usage _ => usage

def Command.subcommands : commandtree.Command → CommandMap
  | .mk _ _ _ _ _ subs => subs

structure CommandTree where
  Commands : CommandMap

def New : CommandTree :=
  { Commands := some [] }

/-- Returns the error and the tree as the call leaves it. -/
def CommandTree.Add (x : CommandTree) (command : Command) : Option Error × CommandTree :=
  -- if x.Commands == nil { x.Commands = make(CommandMap) }
  let es : List (String × Command) :=
    match x.Commands with
    | none => []
    | some es => es
  match entriesGet es command.Command with
  | some _ => (some (.DuplicateCommandError command.Command), { Commands := some es })
  | none => (none, { Commands := some (entriesSet es command.Command command) })

/-- Returns the error and the parent command as the call leaves it. -/
def Command.Add (x : commandtree.Command) (command : commandtree.Command) :
    Option Error × commandtree.Command :=
  match x with
  | .mk name params action description usage subs =>
    -- if x.subcommands == nil { x.subcommands = make(CommandMap) }
    let es : List (String × commandtree.Command) :=
      match subs with
      | none => []
      | some es => es
    match entriesGet es command.Command with
    | some _ =>
      (some (.DuplicateCommandError command.Command),
        .mk name params action description usage (some es))
    | none =>
      (none, .mk name params action description usage
        (some (entriesSet es command.Command command)))

/-! ## Resolution -/

/-- The `for` loop of `findcommand` from a given `cmd`, `menu` and `words`: `.error e` when the
loop returns `e` itself, otherwise `.ok (cmd, words)` with the values of the two variables when
the loop is left. -/
def findcommandLoop (strict : Bool) :
    Option Command → CommandMap → List String → Except Error (Option Command × List String)
  | cmd, _, [] => .ok (cmd, [])
  | cmd, menu, w :: words =>
    if menu.len > 0 then
      match menu.find w with
      | none =>
        if strict then .error (.NoSuchCommandError w) else .ok (cmd, w :: words)
      | some c => findcommandLoop strict (some c) c.subcommands words
    else .ok (cmd, w :: words)

/-- Result of `findcommand`. -/
inductive Found where
  /-- The return `cmd, words, nil`. -/
  | ok (cmd : Command) (words : List String)
  /-- The return `nil, nil, err`. -/
  | err (e : Error)
  /-- The run-time panic of `words[0]` on an empty `words`: index out of range. -/
  | panic

def CommandTree.findcommand (x : CommandTree) (words : List String) (strict : Bool) : Found :=
  match findcommandLoop strict none x.Commands words with
  | .error e => .err e
  | .ok (none, words) =>
    match words with
    | [] => .panic
    | w :: _ => .err (.NoSuchCommandError w)
  | .ok (some cmd, words) => .ok cmd words

/-! ## Execution -/

/-- The state a dispatch runs in: the caller's string variables and, oldest first, the action
invocations made so far, each with the name of the invoked command and the argument list. -/
structure World where
  store : Store
  calls : List (String × List String)

/-- How the parameter loop of `ExecuteWords` ends. -/
inductive Parsed where
  /-- The loop is left with these `args`. -/
  | done (args : List String) (s : Store)
  /-- The `return err` inside the loop. -/
  | fail (e : Error) (s : Store)
  /-- The iteration budget of the model is used up. -/
  | nofuel

/-- The loop `for len(args) > 0` of `ExecuteWords`, run for at most `fuel` evaluations of its
condition. -/
def parameterLoop (parameters : GoMap parameter) : Nat → List String → Store → Parsed
  | 0, _, _ => .nofuel
  | _ + 1, [], s => .done [] s
  | fuel + 1, p :: rest, s =>
    match parameters.find p with
    | none => .done (p :: rest) s
    | some v =>
      match v.parse rest s with
      | (.error e, s') => .fail e s'
      | (.ok args, s') => parameterLoop parameters fuel args s'

/-- The block `if cmd.Parameters != nil`. The loop gets one evaluation of its condition for each
word of `args` and one more. -/
def parseParameters (cmd : Command) (args : List String) (s : Store) : Parsed :=
  match cmd.Parameters with
  | none => .done args s
  | some ps => parameterLoop ps.parameters (args.length + 1) args (ps.setdefaults s)

/-- Result of a run of `ExecuteWords`. -/
inductive Exec where
  /-- The call returns `err` (`none` is nil) and leaves the world `w`. -/
  | ret (err : Option Error) (w : World)
  /-- The call panics. -/
  | panic (w : World)
  /-- The iteration budget of the model is used up. -/
  | nofuel

def CommandTree.ExecuteWords (x : CommandTree) (words : List String) (w : World) : Exec :=
  match x.findcommand words false with
  | .panic => .panic w
  | .err e => .ret (some e) w
  | .ok cmd args =>
    match parseParameters cmd args w.store with
    | .nofuel => .nofuel
    | .fail e s => .ret (some e) { w with store := s }
    | .done args s =>
      match cmd.Action with
      | none =>
        match args with
        | a :: _ => .ret (some (.NoSuchCommandError a)) { w with store := s }
        | [] => .ret none { w with store := s }
      | some action =>
        .ret (action args s).1
          { store := (action args s).2, calls := w.calls ++ [(cmd.Command, args)] }

/-! ## Parameter tokens -/

/-- The words `l1 v1 ... lk vk` of a list of label and value pairs. -/
def pairWords : List (String × String) → List String
  | [] => []
  | (l, v) :: t => l :: v :: pairWords t

/-- The value of the last pair whose label is `l`, if there is one. -/
def lastValue : List (String × String) → String → Option String
  | [], _ => none
  | (l', v) :: t, l =>
    match lastValue t l with
    | some v' => some v'
    | none => if l' = l then some v else none

/-- The store after writing, pair by pair, each value to the destination of the parameter that
is declared under the pair's label. -/
def assignPairs (parameters : GoMap parameter) : List (String × String) → Store → Store
  | [], s => s
  | (l, v) :: t, s =>
    match parameters.find l with
    | none => assignPairs parameters t s
    | some p => assignPairs parameters t (Store.write s p.dest v)

/-- The destinations of the declared parameters are pairwise distinct. -/
def Variables.distinctDests (x : Variables) : Prop :=
  (x.parameters.entries.map (fun e => e.2.dest)).Nodup

/-- Declared parameters that share a destination have the same default. -/
def Variables.sharedDefaults (x : Variables) : Prop :=
  ∀ e ∈ x.parameters.entries, ∀ e' ∈ x.parameters.entries,
    e.2.dest = e'.2.dest → e.2.defaultval = e'.2.defaultval

/-- Every parameter is registered under its own label, as `String` registers it. -/
def Variables.labelled (x : Variables) : Prop :=
  ∀ e ∈ x.parameters.entries, e.2.label = e.1

/-! ## Paths -/

/-- The command at the end of `path`, followed from `menu` through successive child maps: `none`
when the path is empty or one of its words is not a key at its level. -/
def nodeAt (menu : CommandMap) : List String → Option Command
  | [] => none
  | [w] => menu.find w
  | w :: w' :: ws =>
    match menu.find w with
    | none => none
    | some c => nodeAt c.subcommands (w' :: ws)

/-- The menu reached from `menu` after `path`: `menu` itself for the empty path, otherwise the
subcommand map of the command at the end of the path. -/
def menuAfter (menu : CommandMap) : List String → Option CommandMap
  | [] => some menu
  | w :: ws =>
    match menu.find w with
    | none => none
    | some c => menuAfter c.subcommands ws

/-! ## Example values -/

/-- An action that does nothing and returns nil. -/
def quiet : Action := fun _ s => (none, s)

/-- The command `greet` with the string parameter `name` (default `anon`, destination 0). -/
def greet : Command :=
  .mk "greet"
    (some { parameters := some [("name",
      { label := "name", defaultval := "anon", description := "who to greet", dest := 0 })] })
    (some quiet) "greets" "" none

def greetTree : CommandTree :=
  { Commands := some [("greet", greet)] }

/-- A command without action whose only subcommand is `greet`. -/
def menu : Command :=
  .mk "menu" none none "a menu" "" (some [("greet", greet)])

/-- A command with no parameter set, no action and a nil subcommand map. -/
def leaf : Command :=
  .mk "leaf" none none "a leaf" "" none

/-- The tree with the one top-level command `menu`. -/
def menuTree : CommandTree :=
  { Commands := some [("menu", menu)] }

/-- The parameter `a` with default `x` and destination 0. -/
def paramA : parameter :=
  { label := "a", defaultval := "x", description := "first", dest := 0 }

/-- The parameter `b` with default `y` and the same destination 0. -/
def paramB : parameter :=
  { label := "b", defaultval := "y", description := "second", dest := 0 }

/-- A command whose two parameters `a` and `b` share a destination; the map enumerates `a`
first. -/
def pair : Command :=
  .mk "pair" (some { parameters := some [("a", paramA), ("b", paramB)] }) (some quiet)
    "two parameters" "" none

/-- The command `pair` with a map that enumerates `b` first. -/
def pairRev : Command :=
  .mk "pair" (some { parameters := some [("b", paramB), ("a", paramA)] }) (some quiet)
    "two parameters" "" none

def pairTree : CommandTree :=
  { Commands := some [("pair", pair)] }

def pairRevTree : CommandTree :=
  { Commands := some [("pair", pairRev)] }

/-- An action that returns an error of its own. -/
def refuse : Action := fun _ s => (some (.external "refused"), s)

/-- The command `fail` with the string parameter `name` (destination 1) and the action
`refuse`. -/
def failing : Command :=
  .mk "fail"
    (some { parameters := some [("name",
      { label := "name", defaultval := "", description := "a name", dest := 1 })] })
    (some refuse) "always fails" "" none

def failTree : CommandTree :=
  { Commands := some [("fail", failing)] }

/-- Every variable is empty and nothing has been invoked. -/
def world0 : World :=
  { store := fun _ => "", calls := [] }

/-! ## Tokenizer and `Execute` -/

/-- The function `qsplit.Split`, which is not part of this package: the words and the error it
returns for a line. -/
abbrev Splitter := String → List String × Option Error

def CommandTree.Execute (split : Splitter) (x : CommandTree) (line : String) (w : World) :
    Exec :=
  match split line with
  | (_, some err) => .ret (some err) w
  | (words, none) =>
    match words with
    | [] => .ret none w
    | _ :: _ => x.ExecuteWords words w

/-! ## Help -/

def stringparameter.usagetype (_ : stringparameter) : String :=
  "string"

def stringparameter.usagedefault (x : stringparameter) : String :=
  x.defaultval

def stringparameter.usagedescription (x : stringparameter) : String :=
  x.description

/-- The verb `%-Nv` on a string: the string, then blanks up to the width `N`, counted in
characters. -/
def padRight (width : Nat) (s : String) : String :=
  s ++ String.mk (List.replicate (width - s.length) (Char.ofNat 32))

/-- The part of the help text about the named parameters. -/
def helpParameters (cmd : Command) : String :=
  match cmd.Parameters with
  | none => "\n\n      <no named parameters>"
  | some ps =>
    if ps.parameters.len ≤ 0 then "\n\n      <no named parameters>"
    else
      ps.parameters.entries.foldl
        (fun buff e =>
          buff ++ ("\n      " ++ padRight 12 e.1 ++ "   " ++ padRight 8 e.2.usagetype ++ "   " ++
            padRight 24 e.2.usagedefault ++ "   " ++ e.2.usagedescription))
        ("\n\n      " ++ padRight 12 "Parameter" ++ "   " ++ padRight 8 "Type" ++ "   " ++
          padRight 24 "Default" ++ "   " ++ "Description" ++
          "\n      ------------   --------   ------------------------   ------------------")

/-- The part of the help text about the subcommands. -/
def helpSubcommands (cmd : Command) : String :=
  if cmd.subcommands.len ≤ 0 then "\n\n      <no subcommands>"
  else
    cmd.subcommands.entries.foldl
      (fun buff e => buff ++ ("\n      " ++ padRight 12 e.1 ++ "   " ++ e.2.Description))
      ("\n\n      " ++ padRight 12 "Subcommand" ++ "   " ++ "Description" ++
        "\n      ------------   ------------------")

/-- Result of `Help`. -/
inductive HelpResult where
  /-- The call returns the text and `err` (`none` is nil). -/
  | ret (text : String) (err : Option Error)
  /-- The call panics. -/
  | panic

def CommandTree.Help (x : CommandTree) (words : List String) : HelpResult :=
  match x.findcommand words true with
  | .panic => .panic
  | .err e => .ret "" (some e)
  | .ok cmd _ =>
    .ret (cmd.Command ++ ("\n   " ++ cmd.Description) ++
      (if cmd.Usage ≠ "" then "\n   " ++ cmd.Usage else "") ++
      helpParameters cmd ++ helpSubcommands cmd) none

/-! ## Destinations and iteration counts -/

/-- The destinations of the parameters of a variable set. -/
def Variables.dests (x : Variables) : List Addr :=
  x.parameters.entries.map (fun e => e.2.dest)

/-- The destinations of the parameters of a command; none when it has no parameter set. -/
def commandDests (cmd : Command) : List Addr :=
  match cmd.Parameters with
  | none => []
  | some ps => ps.dests

/-- The number of passes through the body of the loop of `findcommand` that reach its end
(`words = words[1:]`), from a given `menu` and `words`; a pass that leaves the loop by `break` or
`return` is not counted. -/
def findcommandIterations (strict : Bool) : CommandMap → List String → Nat
  | _, [] => 0
  | menu, w :: words =>
    if menu.len > 0 then
      match menu.find w with
      | none => 0
      | some c => findcommandIterations strict c.subcommands words + 1
    else 0

/-- The number of passes through the body of the parameter loop of `ExecuteWords` that reach its
end, for at most `fuel` evaluations of the loop condition; a pass that leaves the loop by `break`
or `return` is not counted. -/
def parameterIterations (parameters : GoMap parameter) : Nat → List String → Store → Nat
  | 0, _, _ => 0
  | _ + 1, [], _ => 0
  | fuel + 1, p :: rest, s =>
    match parameters.find p with
    | none => 0
    | some v =>
      match v.parse rest s with
      | (.error _, _) => 0
      | (.ok args, s') => parameterIterations parameters fuel args s' + 1

/-- The store that the parameter step leaves; `s` when the iteration budget is used up. -/
def Parsed.store : Parsed → Store → Store
  | .done _ s', _ => s'
  | .fail _ s', _ => s'
  | .nofuel, s => s

/-- The count `parameterIterations` for the block `if cmd.Parameters != nil` of a command. -/
def parseIterations (cmd : Command) (args : List String) (s : Store) : Nat :=
  match cmd.Parameters with
  | none => 0
  | some ps => parameterIterations ps.parameters (args.length + 1) args (ps.setdefaults s)

/-- The store after `setdefaults` when `range` enumerates the map in the order `order`, an
arrangement of its entries. Go leaves the order open, and it may differ from one call to the
next. -/
def setdefaultsIn (order : List (String × parameter)) (s : Store) : Store :=
  order.foldl (fun s e => e.2.setdefault s) s

/-- The value that the last pair which assigns the address `a` writes there, if a pair assigns
it: a pair assigns `a` when its label is declared with the destination `a`. -/
def lastAssigned (parameters : GoMap parameter) : List (String × String) → Addr → Option String
  | [], _ => none
  | (l, v) :: t, a =>
    match lastAssigned parameters t a with
    | some v' => some v'
    | none =>
      match parameters.find l with
      | some p => if p.dest = a then some v else none
      | none => none

/-! ## More example values -/

/-- A tokenizer for the examples, defined on three lines only: it splits `greet name Alice hello`
at the blanks, finds no word in the empty line, and rejects every other line. -/
def splitExample : Splitter := fun line =>
  if line = "greet name Alice hello" then (["greet", "name", "Alice", "hello"], none)
  else if line = "" then ([], none)
  else ([], some (.external "syntax error"))

/-- The parameter set of `greet`. -/
def greetVariables : Variables :=
  { parameters := some [("name",
    { label := "name", defaultval := "anon", description := "who to greet", dest := 0 })] }

/-- The variable set with a nil map, the zero value of the struct. -/
def zeroVariables : Variables :=
  { parameters := none }

/-- A command whose parameter `greet` has the name of its subcommand `greet`. -/
def shadow : Command :=
  .mk "shadow"
    (some { parameters := some [("greet",
      { label := "greet", defaultval := "none", description := "a greeting", dest := 5 })] })
    (some quiet) "shadowed label" "" (some [("greet", greet)])

def shadowTree : CommandTree :=
  { Commands := some [("shadow", shadow)] }

/-- Every variable holds `old`. -/
def worldOld : World :=
  { store := fun _ => "old", calls := [] }

/-! ## Facts about maps -/

theorem entriesSet_of_absent {α : Type} (es : List (String × α)) (k : String) (v : α)
    (h : entriesGet es k = none) : entriesSet es k v = es ++ [(k, v)] := by
  induction es with
  | nil => rfl
  | cons e rest ih =>
    obtain ⟨k', v'⟩ := e
    by_cases hk : k' = k
    · simp [entriesGet, hk] at h
    · simp only [entriesGet, hk, if_false] at h
      simp [entriesSet, hk, ih h]

theorem entriesGet_entriesSet {α : Type} (es : List (String × α)) (k : String) (v : α)
    (k' : String) :
    entriesGet (entriesSet es k v) k' = if k = k' then some v else entriesGet es k' := by
  induction es with
  | nil => simp [entriesSet, entriesGet]
  | cons e rest ih =>
    obtain ⟨k₀, v₀⟩ := e
    by_cases h0 : k₀ = k
    · subst h0
      by_cases h1 : k₀ = k' <;> simp [entriesSet, entriesGet, h1]
    · by_cases h1 : k₀ = k'
      · subst h1
        have h2 : ¬ k = k₀ := fun h => h0 h.symm
        simp [entriesSet, entriesGet, h0, h2]
      · simp [entriesSet, entriesGet, h0, h1, ih]

theorem entriesGet_mem {α : Type} (es : List (String × α)) (k : String) (v : α)
    (h : entriesGet es k = some v) : (k, v) ∈ es := by
  induction es with
  | nil => simp [entriesGet] at h
  | cons e rest ih =>
    obtain ⟨k', v'⟩ := e
    by_cases hk : k' = k
    · simp only [entriesGet, hk, if_true, Option.some.injEq] at h
      simp [hk, h]
    · simp only [entriesGet, hk, if_false] at h
      exact List.mem_cons_of_mem _ (ih h)

theorem GoMap.eq_some_of_find {α : Type} (m : GoMap α) (k : String) (v : α)
    (h : m.find k = some v) : m = some m.entries := by
  cases m with
  | none => simp [GoMap.find, GoMap.entries, entriesGet] at h
  | some es => rfl

theorem GoMap.len_pos_of_find {α : Type} (m : GoMap α) (k : String) (v : α)
    (h : m.find k = some v) : m.len > 0 := by
  have hm := entriesGet_mem _ _ _ h
  exact List.length_pos_of_mem hm

theorem GoMap.find_of_len_zero {α : Type} (m : GoMap α) (k : String)
    (h : ¬ m.len > 0) : m.find k = none := by
  cases hf : m.find k with
  | none => rfl
  | some v => exact absurd (GoMap.len_pos_of_find m k v hf) h

/-! ## Registration -/

theorem treeAdd_of_present (x : CommandTree) (c old : Command)
    (h : x.Commands.find c.Command = some old) :
    x.Add c = (some (.DuplicateCommandError c.Command), x) := by
  obtain ⟨m⟩ := x
  cases m with
  | none => simp [GoMap.find, GoMap.entries, entriesGet] at h
  | some es =>
    simp only [GoMap.find, GoMap.entries] at h
    simp [CommandTree.Add, h]

theorem commandAdd_of_present (p c old : Command)
    (h : p.subcommands.find c.Command = some old) :
    p.Add c = (some (.DuplicateCommandError c.Command), p) := by
  obtain ⟨name, params, action, description, usage, subs⟩ := p
  cases subs with
  | none => simp [Command.subcommands, GoMap.find, GoMap.entries, entriesGet] at h
  | some es =>
    simp only [Command.subcommands, GoMap.find, GoMap.entries] at h
    simp [Command.Add, h]

theorem treeAdd_of_absent (x : CommandTree) (c : Command)
    (h : x.Commands.find c.Command = none) :
    x.Add c = (none, { Commands := some (x.Commands.entries ++ [(c.Command, c)]) }) := by
  obtain ⟨m⟩ := x
  cases m with
  | none => simp [CommandTree.Add, entriesGet, entriesSet, GoMap.entries]
  | some es =>
    simp only [GoMap.find, GoMap.entries] at h
    simp [CommandTree.Add, h, entriesSet_of_absent es _ _ h, GoMap.entries]

theorem commandAdd_of_absent (name : String) (params : Option Variables)
    (action : Option Action) (description usage : String) (subs : CommandMap) (c : Command)
    (h : subs.find c.Command = none) :
    (Command.mk name params action description usage subs).Add c =
      (none, .mk name params action description usage
        (some (subs.entries ++ [(c.Command, c)]))) := by
  cases subs with
  | none => simp [Command.Add, entriesGet, entriesSet, GoMap.entries]
  | some es =>
    simp only [GoMap.find, GoMap.entries] at h
    simp [Command.Add, h, entriesSet_of_absent es _ _ h, GoMap.entries]

theorem entriesGet_append_new {α : Type} (es : List (String × α)) (k : String) (v : α)
    (h : entriesGet es k = none) : entriesGet (es ++ [(k, v)]) k = some v := by
  rw [← entriesSet_of_absent es k v h, entriesGet_entriesSet]
  simp

theorem entriesGet_append_other {α : Type} (es : List (String × α)) (k : String) (v : α)
    (k' : String) (hk : k' ≠ k) : entriesGet (es ++ [(k, v)]) k' = entriesGet es k' := by
  induction es with
  | nil => simp [entriesGet, Ne.symm hk]
  | cons e rest ih =>
    obtain ⟨k₀, v₀⟩ := e
    by_cases h1 : k₀ = k' <;> simp [entriesGet, h1, ih]

/-- C1: when the name of `c` is already a key at the level, `CommandTree.Add` and `Command.Add`
return `DuplicateCommandError` with the name of `c` and leave the tree, respectively the parent
command, exactly as it was: the mapping has the same entries, and the name is still bound to the
command it was bound to. -/
theorem add_duplicate_rejected :
    (∀ (x : CommandTree) (c old : Command), x.Commands.find c.Command = some old →
      x.Add c = (some (.DuplicateCommandError c.Command), x) ∧
      (x.Add c).2.Commands.find c.Command = some old) ∧
    (∀ (p c old : Command), p.subcommands.find c.Command = some old →
      p.Add c = (some (.DuplicateCommandError c.Command), p) ∧
      (p.Add c).2.subcommands.find c.Command = some old) := by
  constructor
  · intro x c old h
    rw [treeAdd_of_present x c old h]
    exact ⟨rfl, h⟩
  · intro p c old h
    rw [commandAdd_of_present p c old h]
    exact ⟨rfl, h⟩

/-- C1 at `greetTree`, and at the parent command `menu` that has the child `greet`: adding
`greet` again is rejected. -/
theorem add_duplicate_rejected_witness :
    (greetTree.Add greet = (some (.DuplicateCommandError "greet"), greetTree) ∧
      (greetTree.Add greet).2.Commands.find "greet" = some greet) ∧
    (menu.Add greet = (some (.DuplicateCommandError "greet"), menu) ∧
      (menu.Add greet).2.subcommands.find "greet" = some greet) :=
  ⟨add_duplicate_rejected.1 greetTree greet greet rfl,
    add_duplicate_rejected.2 menu greet greet rfl⟩

/-- C2: when the name of `c` is not yet a key at the level, `Add` returns nil and the mapping
afterwards is allocated and holds the old entries followed by the one entry `name(c) -> c`:
the name is bound to `c` and every other key is bound as before. For `Command.Add` the other
fields of the parent are unchanged, and a nil subcommand map becomes the map with the single
entry for `c`. `Add` returns an error exactly when the name is already a key. -/
theorem add_fresh_inserted :
    (∀ (x : CommandTree) (c : Command), x.Commands.find c.Command = none →
      x.Add c = (none, { Commands := some (x.Commands.entries ++ [(c.Command, c)]) }) ∧
      (x.Add c).2.Commands.find c.Command = some c ∧
      (∀ k, k ≠ c.Command → (x.Add c).2.Commands.find k = x.Commands.find k)) ∧
    (∀ (name : String) (params : Option Variables) (action : Option Action)
        (description usage : String) (subs : CommandMap) (c : Command),
      subs.find c.Command = none →
      (Command.mk name params action description usage subs).Add c =
        (none, .mk name params action description usage
          (some (subs.entries ++ [(c.Command, c)]))) ∧
      ((Command.mk name params action description usage subs).Add c).2.subcommands.find
        c.Command = some c ∧
      (∀ k, k ≠ c.Command →
        ((Command.mk name params action description usage subs).Add c).2.subcommands.find k =
          subs.find k)) ∧
    (∀ (name : String) (params : Option Variables) (action : Option Action)
        (description usage : String) (c : Command),
      (Command.mk name params action description usage none).Add c =
        (none, .mk name params action description usage (some [(c.Command, c)]))) ∧
    (∀ (x : CommandTree) (c : Command),
      (x.Add c).1 ≠ none ↔ x.Commands.find c.Command ≠ none) ∧
    (∀ (p c : Command), (p.Add c).1 ≠ none ↔ p.subcommands.find c.Command ≠ none) := by
  refine ⟨?_, ?_, ?_, ?_, ?_⟩
  · intro x c h
    rw [treeAdd_of_absent x c h]
    exact ⟨rfl, entriesGet_append_new _ _ c h, fun k hk => entriesGet_append_other _ _ c k hk⟩
  · intro name params action description usage subs c h
    rw [commandAdd_of_absent _ _ _ _ _ subs c h]
    exact ⟨rfl, entriesGet_append_new _ _ c h, fun k hk => entriesGet_append_other _ _ c k hk⟩
  · intro name params action description usage c
    exact commandAdd_of_absent name params action description usage none c rfl
  · intro x c
    cases h : x.Commands.find c.Command with
    | none => simp [treeAdd_of_absent x c h]
    | some old => simp [treeAdd_of_present x c old h]
  · intro p c
    cases h : p.subcommands.find c.Command with
    | none =>
      obtain ⟨name, params, action, description, usage, subs⟩ := p
      simp [commandAdd_of_absent name params action description usage subs c h]
    | some old => simp [commandAdd_of_present p c old h]

/-- C2 at the empty tree `New` and at the command `leaf`, whose subcommand map is nil: adding
`greet` succeeds and leaves exactly the entry for `greet`. -/
theorem add_fresh_inserted_witness :
    (New.Add greet = (none, { Commands := some [("greet", greet)] }) ∧
      (New.Add greet).2.Commands.find "greet" = some greet ∧
      (∀ k, k ≠ "greet" → (New.Add greet).2.Commands.find k = New.Commands.find k)) ∧
    leaf.Add greet = (none, .mk "leaf" none none "a leaf" "" (some [("greet", greet)])) :=
  ⟨add_fresh_inserted.1 New greet rfl,
    add_fresh_inserted.2.2.1 "leaf" none none "a leaf" "" greet⟩

/-! ## Resolution -/

theorem findcommandLoop_lenient (ws : List String) :
    ∀ (prev : Option Command) (menu : CommandMap) (w : String) (c : Command),
      menu.find w = some c →
      ∃ path rest cmd, findcommandLoop false prev menu (w :: ws) = .ok (some cmd, rest) ∧
        w :: ws = path ++ rest ∧ path ≠ [] ∧ nodeAt menu path = some cmd ∧
        (rest = [] ∨ cmd.subcommands.len = 0 ∨
          ∃ r rs, rest = r :: rs ∧ cmd.subcommands.find r = none) := by
  induction ws with
  | nil =>
    intro prev menu w c h
    refine ⟨[w], [], c, ?_, rfl, by simp, by simp [nodeAt, h], Or.inl rfl⟩
    simp [findcommandLoop, GoMap.len_pos_of_find menu w c h, h]
  | cons w' ws ih =>
    intro prev menu w c h
    have step : findcommandLoop false prev menu (w :: w' :: ws) =
        findcommandLoop false (some c) c.subcommands (w' :: ws) := by
      simp [findcommandLoop, GoMap.len_pos_of_find menu w c h, h]
    by_cases hl : c.subcommands.len > 0
    · cases hf : c.subcommands.find w' with
      | none =>
        refine ⟨[w], w' :: ws, c, ?_, rfl, by simp, by simp [nodeAt, h],
          Or.inr (Or.inr ⟨w', ws, rfl, hf⟩)⟩
        rw [step]
        simp [findcommandLoop, hl, hf]
      | some c' =>
        obtain ⟨path, rest, cmd, hloop, hsplit, hne, hnode, hstop⟩ :=
          ih (some c) c.subcommands w' c' hf
        refine ⟨w :: path, rest, cmd, ?_, by simp [hsplit], by simp, ?_, hstop⟩
        · rw [step]
          exact hloop
        · cases path with
          | nil => exact absurd rfl hne
          | cons a b => simpa [nodeAt, h] using hnode
    · refine ⟨[w], w' :: ws, c, ?_, rfl, by simp, by simp [nodeAt, h], Or.inr (Or.inl ?_)⟩
      · rw [step]
        simp [findcommandLoop, hl]
      · omega

theorem findcommandLoop_strict_ok (ws : List String) :
    ∀ (prev : Option Command) (menu : CommandMap) (w : String) (cmd : Command)
      (rest : List String),
      findcommandLoop true prev menu (w :: ws) = .ok (some cmd, rest) →
      (prev = some cmd ∧ rest = w :: ws ∧ menu.len = 0) ∨
      ∃ path, w :: ws = path ++ rest ∧ path ≠ [] ∧ nodeAt menu path = some cmd ∧
        (rest = [] ∨ cmd.subcommands.len = 0) := by
  induction ws with
  | nil =>
    intro prev menu w cmd rest h
    by_cases hl : menu.len > 0
    · cases hf : menu.find w with
      | none => simp [findcommandLoop, hl, hf] at h
      | some c =>
        simp [findcommandLoop, hl, hf] at h
        obtain ⟨hc, hr⟩ := h
        subst hc
        subst hr
        exact Or.inr ⟨[w], rfl, by simp, by simp [nodeAt, hf], Or.inl rfl⟩
    · simp [findcommandLoop, hl] at h
      exact Or.inl ⟨h.1, h.2.symm, by omega⟩
  | cons w' ws ih =>
    intro prev menu w cmd rest h
    by_cases hl : menu.len > 0
    · cases hf : menu.find w with
      | none => simp [findcommandLoop, hl, hf] at h
      | some c =>
        have step : findcommandLoop true prev menu (w :: w' :: ws) =
            findcommandLoop true (some c) c.subcommands (w' :: ws) := by
          simp [findcommandLoop, hl, hf]
        rw [step] at h
        rcases ih (some c) c.subcommands w' cmd rest h with
          ⟨hc, hr, hz⟩ | ⟨path, hs, hne, hn, hstop⟩
        · simp only [Option.some.injEq] at hc
          subst hc
          subst hr
          exact Or.inr ⟨[w], rfl, by simp, by simp [nodeAt, hf], Or.inr hz⟩
        · refine Or.inr ⟨w :: path, by simp [hs], by simp, ?_, hstop⟩
          cases path with
          | nil => exact absurd rfl hne
          | cons a b => simpa [nodeAt, hf] using hn
    · simp [findcommandLoop, hl] at h
      exact Or.inl ⟨h.1, h.2.symm, by omega⟩

theorem findcommandLoop_strict_error (u : String) (tail : List String) (path : List String) :
    ∀ (prev : Option Command) (menu reached : CommandMap),
      menuAfter menu path = some reached → reached.len > 0 → reached.find u = none →
      findcommandLoop true prev menu (path ++ u :: tail) = .error (.NoSuchCommandError u) := by
  induction path with
  | nil =>
    intro prev menu reached hm hl hf
    simp only [menuAfter, Option.some.injEq] at hm
    subst hm
    simp [findcommandLoop, hl, hf]
  | cons w p ih =>
    intro prev menu reached hm hl hf
    cases hw : menu.find w with
    | none => simp [menuAfter, hw] at hm
    | some c =>
      simp only [menuAfter, hw] at hm
      have := ih (some c) c.subcommands reached hm hl hf
      simpa [findcommandLoop, GoMap.len_pos_of_find menu w c hw, hw] using this

theorem findcommandLoop_lenient_stop (cmd : Command) (args : List String)
    (hstop : args = [] ∨ ∃ a t, args = a :: t ∧ cmd.subcommands.find a = none) :
    findcommandLoop false (some cmd) cmd.subcommands args = .ok (some cmd, args) := by
  rcases hstop with h | ⟨a, t, h, hf⟩
  · subst h; rfl
  · subst h
    by_cases hl : cmd.subcommands.len > 0 <;> simp [findcommandLoop, hl, hf]

/-- Lenient resolution of a valid path followed by words of which the first is not a subcommand
name of the command at the end of the path: that command, and those words. -/
theorem findcommand_lenient_path (x : CommandTree) (path args : List String) (cmd : Command)
    (hnode : nodeAt x.Commands path = some cmd)
    (hstop : args = [] ∨ ∃ a t, args = a :: t ∧ cmd.subcommands.find a = none) :
    x.findcommand (path ++ args) false = .ok cmd args := by
  have loop : ∀ (path : List String) (prev : Option Command) (menu : CommandMap),
      nodeAt menu path = some cmd →
      findcommandLoop false prev menu (path ++ args) = .ok (some cmd, args) := by
    intro path
    induction path with
    | nil => intro prev menu h; simp [nodeAt] at h
    | cons w p ih =>
      intro prev menu h
      cases p with
      | nil =>
        simp only [nodeAt] at h
        have := findcommandLoop_lenient_stop cmd args hstop
        simpa [findcommandLoop, GoMap.len_pos_of_find menu w cmd h, h] using this
      | cons w' ws =>
        cases hw : menu.find w with
        | none => simp [nodeAt, hw] at h
        | some c =>
          simp only [nodeAt, hw] at h
          have := ih (some c) c.subcommands h
          simpa [findcommandLoop, GoMap.len_pos_of_find menu w c hw, hw] using this
  simp [CommandTree.findcommand, loop path none x.Commands hnode]

/-- C3: when the first word is not the name of a top-level command, `ExecuteWords` returns
`NoSuchCommandError` with that word and leaves the world as it was: no action is invoked and no
destination is written. -/
theorem executeWords_unknown_first (x : CommandTree) (w : String) (ws : List String)
    (world : World) (h : x.Commands.find w = none) :
    x.ExecuteWords (w :: ws) world = .ret (some (.NoSuchCommandError w)) world := by
  have hfind : x.findcommand (w :: ws) false = .err (.NoSuchCommandError w) := by
    by_cases hl : x.Commands.len > 0 <;> simp [CommandTree.findcommand, findcommandLoop, hl, h]
  simp [CommandTree.ExecuteWords, hfind]

/-- C3 at `greetTree` and the line `gree name Alice`. -/
theorem executeWords_unknown_first_witness :
    greetTree.ExecuteWords ["gree", "name", "Alice"] world0 =
      .ret (some (.NoSuchCommandError "gree")) world0 :=
  executeWords_unknown_first greetTree "gree" ["name", "Alice"] world0 rfl

/-- C4: when the first word is the name of a top-level command, lenient `findcommand` returns a
command `cmd` and a remainder `rest` such that the words are a non-empty `path` followed by
`rest`, `cmd` is the command at the end of `path`, and the walk went as deep as possible: `rest`
is empty, or `cmd` has no subcommands, or the first word of `rest` is not the name of a
subcommand of `cmd`. -/
theorem findcommand_lenient_deepest (x : CommandTree) (w : String) (ws : List String)
    (c : Command) (h : x.Commands.find w = some c) :
    ∃ path rest cmd, x.findcommand (w :: ws) false = .ok cmd rest ∧
      w :: ws = path ++ rest ∧ path ≠ [] ∧ nodeAt x.Commands path = some cmd ∧
      (rest = [] ∨ cmd.subcommands.len = 0 ∨
        ∃ r rs, rest = r :: rs ∧ cmd.subcommands.find r = none) := by
  obtain ⟨path, rest, cmd, hloop, hrest⟩ := findcommandLoop_lenient ws none x.Commands w c h
  exact ⟨path, rest, cmd, by simp [CommandTree.findcommand, hloop], hrest⟩

/-- C4 at `menuTree` and the line `menu greet name Alice`. -/
theorem findcommand_lenient_deepest_witness :
    ∃ path rest cmd,
      menuTree.findcommand ["menu", "greet", "name", "Alice"] false = .ok cmd rest ∧
      ["menu", "greet", "name", "Alice"] = path ++ rest ∧ path ≠ [] ∧
      nodeAt menuTree.Commands path = some cmd ∧
      (rest = [] ∨ cmd.subcommands.len = 0 ∨
        ∃ r rs, rest = r :: rs ∧ cmd.subcommands.find r = none) :=
  findcommand_lenient_deepest menuTree "menu" ["greet", "name", "Alice"] menu rfl

/-- C5, as stated, fails: strict resolution of `greet foo` in `greetTree` succeeds with the
remainder `foo`, although `foo` names no subcommand of `greet`. -/
theorem findcommand_strict_leaf_remainder :
    greetTree.findcommand ["greet", "foo"] true = .ok greet ["foo"] ∧
      greet.subcommands.find "foo" = none :=
  ⟨rfl, rfl⟩

/-- C5, amended: for a non-empty word sequence, when strict `findcommand` succeeds with `cmd`
and `rest`, the words are a non-empty valid `path` to `cmd` followed by `rest`, and `rest` is
empty or `cmd` has no subcommands; and when, after a valid `path` (possibly empty), the word `u`
is not a key of the menu reached, strict resolution fails with `NoSuchCommandError` naming `u`,
provided that menu is non-empty or is the top-level menu. -/
theorem findcommand_strict (x : CommandTree) (w : String) (ws : List String) :
    (∀ cmd rest, x.findcommand (w :: ws) true = .ok cmd rest →
      ∃ path, w :: ws = path ++ rest ∧ path ≠ [] ∧ nodeAt x.Commands path = some cmd ∧
        (rest = [] ∨ cmd.subcommands.len = 0)) ∧
    (∀ path u tail reached, w :: ws = path ++ u :: tail →
      menuAfter x.Commands path = some reached → reached.find u = none →
      (path = [] ∨ reached.len > 0) →
      x.findcommand (w :: ws) true = .err (.NoSuchCommandError u)) := by
  constructor
  · intro cmd rest h
    cases hloop : findcommandLoop true none x.Commands (w :: ws) with
    | error e => simp [CommandTree.findcommand, hloop] at h
    | ok r =>
      obtain ⟨prev, words⟩ := r
      cases prev with
      | none =>
        cases words <;> simp [CommandTree.findcommand, hloop] at h
      | some c =>
        simp [CommandTree.findcommand, hloop] at h
        obtain ⟨hc, hw⟩ := h
        subst hc
        subst hw
        rcases findcommandLoop_strict_ok ws none x.Commands w c words hloop with
          ⟨hn, _, _⟩ | hpath
        · simp at hn
        · exact hpath
  · intro path u tail reached hsplit hm hf hl
    by_cases hpos : reached.len > 0
    · rw [hsplit]
      simp [CommandTree.findcommand,
        findcommandLoop_strict_error u tail path none x.Commands reached hm hpos hf]
    · rcases hl with hp | hp
      · subst hp
        simp only [menuAfter, Option.some.injEq] at hm
        subst hm
        rw [hsplit]
        simp [CommandTree.findcommand, findcommandLoop, hpos]
      · exact absurd hp hpos

/-- C5, amended, at `menuTree`: `menu greet` resolves strictly with nothing left, and `menu gree`
fails naming `gree`. -/
theorem findcommand_strict_witness :
    (∃ path, ["menu", "greet"] = path ++ [] ∧ path ≠ [] ∧
      nodeAt menuTree.Commands path = some greet ∧ (([] : List String) = [] ∨
        greet.subcommands.len = 0)) ∧
    menuTree.findcommand ["menu", "gree"] true = .err (.NoSuchCommandError "gree") :=
  ⟨(findcommand_strict menuTree "menu" ["greet"]).1 greet [] rfl,
    (findcommand_strict menuTree "menu" ["gree"]).2 ["menu"] "gree" [] menu.subcommands rfl rfl
      rfl (Or.inr (by decide))⟩

/-! ## Parameter defaults and the parameter loop -/

theorem Store.write_same (s : Store) (a : Addr) (v : String) : Store.write s a v a = v := by
  simp [Store.write]

theorem Store.write_other (s : Store) (a b : Addr) (v : String) (h : b ≠ a) :
    Store.write s a v b = s b := by
  simp [Store.write, h]

theorem foldl_setdefault_holds (es : List (String × parameter)) :
    ∀ (s : Store),
      (∀ e ∈ es, ∀ e' ∈ es, e.2.dest = e'.2.dest → e.2.defaultval = e'.2.defaultval) →
      ∀ e ∈ es, (es.foldl (fun s e => e.2.setdefault s) s) e.2.dest = e.2.defaultval := by
  induction es using List.reverseRecOn with
  | nil => intro s _ e he; simp at he
  | append_singleton init last ih =>
    intro s hshare e he
    rw [List.foldl_append]
    simp only [List.foldl_cons, List.foldl_nil, stringparameter.setdefault]
    by_cases hd : e.2.dest = last.2.dest
    · rw [hd, Store.write_same]
      exact (hshare e he last (by simp) hd).symm
    · rw [Store.write_other _ _ _ _ hd]
      have hmem : e ∈ init := by
        rcases List.mem_append.1 he with h | h
        · exact h
        · simp only [List.mem_singleton] at h
          exact absurd (by rw [h]) hd
      exact ih s (fun a ha b hb => hshare a (List.mem_append_left _ ha) b
        (List.mem_append_left _ hb)) e hmem

theorem setdefaults_holds (x : Variables) (s : Store) (h : x.sharedDefaults) :
    ∀ e ∈ x.parameters.entries, x.setdefaults s e.2.dest = e.2.defaultval :=
  foldl_setdefault_holds x.parameters.entries s h

theorem sharedDefaults_of_distinctDests (x : Variables) (h : x.distinctDests) :
    x.sharedDefaults := by
  intro e he e' he' hd
  rw [List.inj_on_of_nodup_map h he he' hd]

theorem find_injective_of_distinctDests (x : Variables) (h : x.distinctDests) (l l' : String)
    (p p' : parameter) (hl : x.parameters.find l = some p) (hl' : x.parameters.find l' = some p')
    (hd : p.dest = p'.dest) : l = l' := by
  have h1 := entriesGet_mem _ _ _ hl
  have h2 := entriesGet_mem _ _ _ hl'
  have := List.inj_on_of_nodup_map h h1 h2 hd
  exact (Prod.mk.inj this).1

theorem parameterLoop_pairs (parameters : GoMap parameter) (rest : List String)
    (pairs : List (String × String)) :
    ∀ (fuel : Nat) (s : Store), (∀ q ∈ pairs, parameters.find q.1 ≠ none) →
      parameterLoop parameters (fuel + pairs.length) (pairWords pairs ++ rest) s =
        parameterLoop parameters fuel rest (assignPairs parameters pairs s) := by
  induction pairs with
  | nil => intro fuel s _; rfl
  | cons q t ih =>
    intro fuel s hdecl
    obtain ⟨l, v⟩ := q
    cases hf : parameters.find l with
    | none => exact absurd hf (hdecl (l, v) (by simp))
    | some p =>
      have ht : ∀ q ∈ t, parameters.find q.1 ≠ none :=
        fun q hq => hdecl q (List.mem_cons_of_mem _ hq)
      have := ih fuel (Store.write s p.dest v) ht
      simpa [pairWords, parameterLoop, hf, stringparameter.parse, assignPairs,
        ← Nat.add_assoc] using this

theorem parameterLoop_stop (parameters : GoMap parameter) (fuel : Nat) (rest : List String)
    (s : Store) (h : rest = [] ∨ ∃ r rs, rest = r :: rs ∧ parameters.find r = none) :
    parameterLoop parameters (fuel + 1) rest s = .done rest s := by
  rcases h with h | ⟨r, rs, h, hf⟩
  · subst h; rfl
  · subst h; simp [parameterLoop, hf]

theorem parameterLoop_missing (parameters : GoMap parameter) (fuel : Nat) (L : String)
    (p : parameter) (s : Store) (h : parameters.find L = some p) :
    parameterLoop parameters (fuel + 1) [L] s = .fail (.MissingValueError p.label) s := by
  simp [parameterLoop, h, stringparameter.parse]

theorem length_pairWords_append (pairs : List (String × String)) (rest : List String) :
    (pairWords pairs ++ rest).length + 1 = (pairs.length + rest.length + 1) + pairs.length := by
  induction pairs with
  | nil => simp [pairWords]
  | cons q t ih =>
    obtain ⟨l, v⟩ := q
    simp only [pairWords, List.cons_append, List.length_cons] at ih ⊢
    omega

theorem assignPairs_value (x : Variables) (h : x.distinctDests) (l : String) (p : parameter)
    (hl : x.parameters.find l = some p) (pairs : List (String × String)) :
    ∀ (s : Store), assignPairs x.parameters pairs s p.dest =
      match lastValue pairs l with
      | some v => v
      | none => s p.dest := by
  induction pairs with
  | nil => intro s; rfl
  | cons q t ih =>
    intro s
    obtain ⟨l', v⟩ := q
    cases hf : x.parameters.find l' with
    | none =>
      have hne : ¬ l' = l := fun e => by rw [e, hl] at hf; cases hf
      simp only [assignPairs, hf, lastValue, hne, if_false]
      rw [ih s]
      cases lastValue t l <;> rfl
    | some p' =>
      simp only [assignPairs, hf, lastValue]
      rw [ih (Store.write s p'.dest v)]
      cases hlv : lastValue t l with
      | some v' => rfl
      | none =>
        by_cases hll : l' = l
        · subst hll
          rw [hl] at hf
          cases hf
          simp [Store.write_same]
        · have hd : p.dest ≠ p'.dest :=
            fun e => hll (find_injective_of_distinctDests x h l l' p p' hl hf e).symm
          simp [hll, Store.write_other _ _ _ _ hd]

theorem parameterLoop_fuel (parameters : GoMap parameter) :
    ∀ (fuel : Nat) (args : List String) (s : Store), args.length < fuel →
      parameterLoop parameters fuel args s ≠ .nofuel := by
  intro fuel
  induction fuel with
  | zero => intro args s h; omega
  | succ n ih =>
    intro args s h
    cases args with
    | nil => simp [parameterLoop]
    | cons a rest =>
      cases hf : parameters.find a with
      | none => simp [parameterLoop, hf]
      | some v =>
        cases rest with
        | nil => simp [parameterLoop, hf, stringparameter.parse]
        | cons b rest' =>
          have := ih rest' (Store.write s v.dest b) (by simp at h; omega)
          simpa [parameterLoop, hf, stringparameter.parse] using this

theorem parseParameters_ne_nofuel (cmd : Command) (args : List String) (s : Store) :
    parseParameters cmd args s ≠ .nofuel := by
  unfold parseParameters
  cases cmd.Parameters with
  | none => simp
  | some ps => exact parameterLoop_fuel _ _ _ _ (Nat.lt_succ_self _)

theorem parseParameters_pairs (cmd : Command) (ps : Variables) (hps : cmd.Parameters = some ps)
    (pairs : List (String × String)) (rest : List String) (s : Store)
    (hdecl : ∀ q ∈ pairs, ps.parameters.find q.1 ≠ none) :
    parseParameters cmd (pairWords pairs ++ rest) s =
      parameterLoop ps.parameters (pairs.length + rest.length + 1) rest
        (assignPairs ps.parameters pairs (ps.setdefaults s)) := by
  unfold parseParameters
  rw [hps]
  simp only
  rw [length_pairWords_append, parameterLoop_pairs _ _ _ _ _ hdecl]

/-! ## Execution -/

/-- C6: greedy-prefix parameter parsing. Let lenient resolution of the words end at `cmd`, which
has the parameter set `ps` and an action, and leave `l1 v1 ... lk vk` followed by `rest`, where
every `li` is a declared label and `rest` is empty or starts with a word that is not a declared
label, and let the destinations of `ps` be pairwise distinct. Then `ExecuteWords` invokes the
action once, with exactly `rest`, and returns what the action returns; in the store `s` that the
dispatcher hands to the action (and that an action such as a recording one leaves as it is) the
destination of every declared label holds the value of the label's last occurrence among the
`li`, or the parameter's default when the label does not occur. -/
theorem executeWords_greedy_prefix (x : CommandTree) (words : List String) (cmd : Command)
    (ps : Variables) (action : Action) (pairs : List (String × String)) (rest : List String)
    (w : World)
    (hfind : x.findcommand words false = .ok cmd (pairWords pairs ++ rest))
    (hps : cmd.Parameters = some ps) (hact : cmd.Action = some action)
    (hdecl : ∀ q ∈ pairs, ps.parameters.find q.1 ≠ none)
    (hrest : rest = [] ∨ ∃ r rs, rest = r :: rs ∧ ps.parameters.find r = none)
    (hdist : ps.distinctDests) :
    ∃ s : Store,
      x.ExecuteWords words w = .ret (action rest s).1
        { store := (action rest s).2, calls := w.calls ++ [(cmd.Command, rest)] } ∧
      ∀ l p, ps.parameters.find l = some p →
        s p.dest = match lastValue pairs l with
          | some v => v
          | none => p.defaultval := by
  refine ⟨assignPairs ps.parameters pairs (ps.setdefaults w.store), ?_, ?_⟩
  · have hparse := parseParameters_pairs cmd ps hps pairs rest w.store hdecl
    rw [parameterLoop_stop _ _ _ _ hrest] at hparse
    simp [CommandTree.ExecuteWords, hfind, hparse, hact]
  · intro l p hl
    rw [assignPairs_value ps hdist l p hl pairs]
    have hdef := setdefaults_holds ps w.store (sharedDefaults_of_distinctDests ps hdist)
      (l, p) (entriesGet_mem _ _ _ hl)
    cases lastValue pairs l with
    | some v => rfl
    | none => exact hdef

/-- C6 at `greet name Alice hello`: the action of `greet` is invoked once with `hello`, nil is
returned, and the destination of `name` holds `Alice`. -/
theorem executeWords_greedy_prefix_witness :
    ∃ w' : World, greetTree.ExecuteWords ["greet", "name", "Alice", "hello"] world0 =
        .ret none w' ∧
      w'.calls = [("greet", ["hello"])] ∧ w'.store 0 = "Alice" := by
  obtain ⟨s, hrun, hval⟩ := executeWords_greedy_prefix greetTree
    ["greet", "name", "Alice", "hello"] greet
    { parameters := some [("name",
      { label := "name", defaultval := "anon", description := "who to greet", dest := 0 })] }
    quiet [("name", "Alice")] ["hello"] world0 rfl rfl rfl (by decide)
    (Or.inr ⟨"hello", [], rfl, rfl⟩) (by unfold Variables.distinctDests; decide)
  exact ⟨_, hrun, rfl, hval "name" _ rfl⟩

/-- C7, as stated, fails: the two parameters of `pair` share a destination and have different
defaults. After `pair go` the action has received `go`, but the destination does not hold the
default of `a` when the map enumerates `a` first, and does not hold the default of `b` when the
map enumerates `b` first. -/
theorem executeWords_shared_destination_default :
    (∃ w' : World, pairTree.ExecuteWords ["pair", "go"] world0 = .ret none w' ∧
      w'.calls = [("pair", ["go"])] ∧ w'.store paramA.dest ≠ paramA.defaultval) ∧
    (∃ w' : World, pairRevTree.ExecuteWords ["pair", "go"] world0 = .ret none w' ∧
      w'.calls = [("pair", ["go"])] ∧ w'.store paramB.dest ≠ paramB.defaultval) :=
  ⟨⟨_, rfl, rfl, by decide⟩, ⟨_, rfl, rfl, by decide⟩⟩

/-- C7, amended: let lenient resolution of the words end at `cmd`, which has the parameter set
`ps` and an action, and leave a non-empty remainder whose first word is not a declared label.
Then, for every parameter set, `ExecuteWords` invokes the action once, with the whole remainder,
and returns what the action returns; and provided that declared parameters which share a
destination have the same default (so in particular when the destinations are pairwise
distinct), in the store handed to the action the destination of every declared parameter holds
its default. -/
theorem executeWords_stops_at_first_other (x : CommandTree) (words : List String)
    (cmd : Command) (ps : Variables) (action : Action) (r : String) (rs : List String)
    (w : World)
    (hfind : x.findcommand words false = .ok cmd (r :: rs))
    (hps : cmd.Parameters = some ps) (hact : cmd.Action = some action)
    (hr : ps.parameters.find r = none) :
    x.ExecuteWords words w = .ret (action (r :: rs) (ps.setdefaults w.store)).1
        { store := (action (r :: rs) (ps.setdefaults w.store)).2,
          calls := w.calls ++ [(cmd.Command, r :: rs)] } ∧
      (ps.sharedDefaults →
        ∀ e ∈ ps.parameters.entries, ps.setdefaults w.store e.2.dest = e.2.defaultval) := by
  constructor
  · have hparse : parseParameters cmd (r :: rs) w.store =
        .done (r :: rs) (ps.setdefaults w.store) := by
      simp [parseParameters, hps, parameterLoop, hr]
    simp [CommandTree.ExecuteWords, hfind, hparse, hact]
  · intro hshare
    exact setdefaults_holds ps w.store hshare

/-- C7, amended, at `greet hello name Alice`: the action receives all three words and the
destination of `name` holds the default `anon`; and at `pair go`, where the two parameters share
a destination, the action still receives `go`. -/
theorem executeWords_stops_at_first_other_witness :
    (∃ w' : World, greetTree.ExecuteWords ["greet", "hello", "name", "Alice"] world0 =
        .ret none w' ∧
      w'.calls = [("greet", ["hello", "name", "Alice"])] ∧ w'.store 0 = "anon") ∧
    (∃ w' : World, pairTree.ExecuteWords ["pair", "go"] world0 = .ret none w' ∧
      w'.calls = [("pair", ["go"])]) :=
  ⟨⟨_, (executeWords_stops_at_first_other greetTree ["greet", "hello", "name", "Alice"] greet
      greetVariables quiet "hello" ["name", "Alice"] world0 rfl rfl rfl rfl).1, rfl,
    (executeWords_stops_at_first_other greetTree ["greet", "hello", "name", "Alice"] greet
      greetVariables quiet "hello" ["name", "Alice"] world0 rfl rfl rfl rfl).2
      (sharedDefaults_of_distinctDests _ (by unfold Variables.distinctDests; decide))
      ("name", _) (List.mem_singleton.2 rfl)⟩,
    ⟨_, (executeWords_stops_at_first_other pairTree ["pair", "go"] pair
      { parameters := some [("a", paramA), ("b", paramB)] } quiet "go" [] world0
      rfl rfl rfl rfl).1, rfl⟩⟩

theorem assignPairs_at (parameters : GoMap parameter) (a : Addr)
    (pairs : List (String × String)) :
    ∀ (s : Store), assignPairs parameters pairs s a =
      match lastAssigned parameters pairs a with
      | some v => v
      | none => s a := by
  induction pairs with
  | nil => intro s; rfl
  | cons q t ih =>
    intro s
    obtain ⟨l, v⟩ := q
    cases hf : parameters.find l with
    | none =>
      simp only [assignPairs, hf, lastAssigned]
      rw [ih s]
      cases lastAssigned parameters t a <;> rfl
    | some p =>
      simp only [assignPairs, hf, lastAssigned]
      rw [ih (Store.write s p.dest v)]
      cases lastAssigned parameters t a with
      | some v' => rfl
      | none =>
        by_cases hd : p.dest = a
        · subst hd
          simp [Store.write_same]
        · simp [hd, Store.write_other _ _ _ _ (fun h => hd h.symm)]

/-- C8, as stated, fails: in `pair a` the label `a` has no value, so the call fails with
`MissingValueError` naming `a` and nothing is invoked; no pair precedes, so no destination was
assigned, yet the one declared destination, which `a` (default `x`) and `b` (default `y`) share,
does not hold the default of `a` when the map enumerates `a` first, and does not hold the
default of `b` when the map enumerates `b` first. -/
theorem executeWords_missing_value_shared_destination :
    (∃ w' : World, pairTree.ExecuteWords ["pair", "a"] world0 =
        .ret (some (.MissingValueError "a")) w' ∧
      w'.calls = [] ∧ w'.store paramA.dest ≠ paramA.defaultval) ∧
    (∃ w' : World, pairRevTree.ExecuteWords ["pair", "a"] world0 =
        .ret (some (.MissingValueError "a")) w' ∧
      w'.calls = [] ∧ w'.store paramB.dest ≠ paramB.defaultval) :=
  ⟨⟨_, rfl, rfl, by decide⟩, ⟨_, rfl, rfl, by decide⟩⟩

/-- C8, amended: let lenient resolution of the words end at `cmd`, which has the parameter set
`ps`, and leave `l1 v1 ... lk vk L`, where every `li` is a declared label and `L` is the label
of the parameter `p` declared under it. Then, for every parameter set, `ExecuteWords` fails with
`MissingValueError` naming `L` and invokes no action; nothing is rolled back: every address
that a preceding pair assigns holds the value of the last pair that assigns it; and provided
that declared parameters which share a destination have the same default, every other declared
destination holds the default of its parameter. -/
theorem executeWords_missing_value (x : CommandTree) (words : List String) (cmd : Command)
    (ps : Variables) (pairs : List (String × String)) (L : String) (p : parameter) (w : World)
    (hfind : x.findcommand words false = .ok cmd (pairWords pairs ++ [L]))
    (hps : cmd.Parameters = some ps)
    (hdecl : ∀ q ∈ pairs, ps.parameters.find q.1 ≠ none)
    (hL : ps.parameters.find L = some p) (hlabel : p.label = L) :
    ∃ s : Store,
      x.ExecuteWords words w =
        .ret (some (.MissingValueError L)) { store := s, calls := w.calls } ∧
      (∀ a v, lastAssigned ps.parameters pairs a = some v → s a = v) ∧
      (ps.sharedDefaults →
        ∀ e ∈ ps.parameters.entries, lastAssigned ps.parameters pairs e.2.dest = none →
          s e.2.dest = e.2.defaultval) := by
  refine ⟨assignPairs ps.parameters pairs (ps.setdefaults w.store), ?_, ?_, ?_⟩
  · have hparse := parseParameters_pairs cmd ps hps pairs [L] w.store hdecl
    rw [parameterLoop_missing _ _ L p _ hL, hlabel] at hparse
    simp [CommandTree.ExecuteWords, hfind, hparse]
  · intro a v hv
    rw [assignPairs_at, hv]
  · intro hshare e he hnone
    rw [assignPairs_at, hnone]
    exact setdefaults_holds ps w.store hshare e he

/-- C8, amended, at `fail name Bob name`: the call fails with `MissingValueError` naming `name`,
nothing is invoked and the destination keeps `Bob`; and at `greet name`, where no pair precedes,
the destination holds the default. -/
theorem executeWords_missing_value_witness :
    (∃ w' : World, failTree.ExecuteWords ["fail", "name", "Bob", "name"] world0 =
        .ret (some (.MissingValueError "name")) w' ∧
      w'.calls = [] ∧ w'.store 1 = "Bob") ∧
    (∃ w' : World, greetTree.ExecuteWords ["greet", "name"] world0 =
        .ret (some (.MissingValueError "name")) w' ∧
      w'.calls = [] ∧ w'.store 0 = "anon") := by
  obtain ⟨s, hrun, hassigned, _⟩ := executeWords_missing_value failTree
    ["fail", "name", "Bob", "name"] failing
    { parameters := some [("name",
      { label := "name", defaultval := "", description := "a name", dest := 1 })] }
    [("name", "Bob")] "name" _ world0 rfl rfl (by decide) rfl rfl
  obtain ⟨s', hrun', _, hdefault⟩ := executeWords_missing_value greetTree ["greet", "name"]
    greet greetVariables [] "name" _ world0 rfl rfl (by decide) rfl rfl
  exact ⟨⟨_, hrun, rfl, hassigned 1 "Bob" rfl⟩,
    ⟨_, hrun', rfl, hdefault (sharedDefaults_of_distinctDests _
      (by unfold Variables.distinctDests; decide)) ("name", _) (List.mem_singleton.2 rfl) rfl⟩⟩

/-- C9: let lenient resolution of the words end at a command that has no action, and let
parameter parsing leave the words `left` and the store `s`. When `left` is non-empty,
`ExecuteWords` fails with `NoSuchCommandError` naming its first word; when `left` is empty,
`ExecuteWords` returns nil. In both cases nothing is invoked and the store is the one that the
parsing step left. -/
theorem executeWords_no_action (x : CommandTree) (words : List String) (cmd : Command)
    (args left : List String) (s : Store) (w : World)
    (hfind : x.findcommand words false = .ok cmd args) (hact : cmd.Action = none)
    (hparse : parseParameters cmd args w.store = .done left s) :
    (∀ a t, left = a :: t →
      x.ExecuteWords words w =
        .ret (some (.NoSuchCommandError a)) { store := s, calls := w.calls }) ∧
    (left = [] → x.ExecuteWords words w = .ret none { store := s, calls := w.calls }) := by
  constructor
  · intro a t hl
    subst hl
    simp [CommandTree.ExecuteWords, hfind, hparse, hact]
  · intro hl
    subst hl
    simp [CommandTree.ExecuteWords, hfind, hparse, hact]

/-- C9 at `menuTree`: `menu zzz` fails naming `zzz`, and `menu` alone returns nil; the world
stays as it was. -/
theorem executeWords_no_action_witness :
    menuTree.ExecuteWords ["menu", "zzz"] world0 =
        .ret (some (.NoSuchCommandError "zzz")) world0 ∧
      menuTree.ExecuteWords ["menu"] world0 = .ret none world0 :=
  ⟨(executeWords_no_action menuTree ["menu", "zzz"] menu ["zzz"] ["zzz"] world0.store world0
      rfl rfl rfl).1 "zzz" [] rfl,
    (executeWords_no_action menuTree ["menu"] menu [] [] world0.store world0 rfl rfl rfl).2 rfl⟩

/-- C10: let lenient resolution of the words end at a command `cmd` that has an action, and let
parameter parsing not fail. Then parameter parsing leaves some words `left` and a store `s`, and
`ExecuteWords` invokes the action once, with `left` in `s`: it returns the error that the action
returns, unchanged, leaves the store that the action leaves, and the log of invocations grows by
the one entry for `cmd` and `left`. -/
theorem executeWords_action (x : CommandTree) (words : List String) (cmd : Command)
    (args : List String) (action : Action) (w : World)
    (hfind : x.findcommand words false = .ok cmd args) (hact : cmd.Action = some action)
    (hok : ∀ e s, parseParameters cmd args w.store ≠ .fail e s) :
    ∃ left s, parseParameters cmd args w.store = .done left s ∧
      x.ExecuteWords words w = .ret (action left s).1
        { store := (action left s).2, calls := w.calls ++ [(cmd.Command, left)] } := by
  cases hparse : parseParameters cmd args w.store with
  | nofuel => exact absurd hparse (parseParameters_ne_nofuel cmd args w.store)
  | fail e s => exact absurd hparse (hok e s)
  | done left s =>
    exact ⟨left, s, rfl, by simp [CommandTree.ExecuteWords, hfind, hparse, hact]⟩

/-- C10 at `failTree` and `fail name Bob now`: the action of `fail` is invoked once with `now`
and its error is returned unchanged. -/
theorem executeWords_action_witness :
    ∃ left s, parseParameters failing ["name", "Bob", "now"] world0.store = .done left s ∧
      failTree.ExecuteWords ["fail", "name", "Bob", "now"] world0 =
        .ret (refuse left s).1
          { store := (refuse left s).2, calls := world0.calls ++ [("fail", left)] } :=
  executeWords_action failTree ["fail", "name", "Bob", "now"] failing ["name", "Bob", "now"]
    refuse world0 rfl rfl (fun e s h => by cases h)

/-! ## Defaults -/

theorem foldl_setdefault_frame (es : List (String × parameter)) :
    ∀ (s : Store) (a : Addr), a ∉ es.map (fun e => e.2.dest) →
      (es.foldl (fun s e => e.2.setdefault s) s) a = s a := by
  induction es with
  | nil => intro s a _; rfl
  | cons e t ih =>
    intro s a ha
    simp only [List.map_cons, List.mem_cons, not_or] at ha
    simp only [List.foldl_cons]
    rw [ih _ a ha.2, stringparameter.setdefault, Store.write_other _ _ _ _ ha.1]

theorem foldl_setdefault_covered (es : List (String × parameter)) :
    ∀ (s s' : Store) (a : Addr), a ∈ es.map (fun e => e.2.dest) →
      (es.foldl (fun s e => e.2.setdefault s) s) a =
        (es.foldl (fun s e => e.2.setdefault s) s') a := by
  induction es with
  | nil => intro s s' a ha; simp at ha
  | cons e t ih =>
    intro s s' a ha
    simp only [List.foldl_cons]
    by_cases hat : a ∈ t.map (fun e => e.2.dest)
    · exact ih _ _ a hat
    · have hae : a = e.2.dest := by
        simp only [List.map_cons, List.mem_cons] at ha
        rcases ha with h | h
        · exact h
        · exact absurd h hat
      rw [foldl_setdefault_frame t _ a hat, foldl_setdefault_frame t _ a hat, hae]
      simp [stringparameter.setdefault, Store.write_same]

theorem foldl_setdefault_absorb (es₁ es₂ : List (String × parameter)) (s : Store)
    (hsub : ∀ a ∈ es₁.map (fun e => e.2.dest), a ∈ es₂.map (fun e => e.2.dest)) :
    es₂.foldl (fun s e => e.2.setdefault s) (es₁.foldl (fun s e => e.2.setdefault s) s) =
      es₂.foldl (fun s e => e.2.setdefault s) s := by
  funext a
  by_cases ha : a ∈ es₂.map (fun e => e.2.dest)
  · exact foldl_setdefault_covered es₂ _ _ a ha
  · rw [foldl_setdefault_frame es₂ _ a ha, foldl_setdefault_frame es₂ _ a ha]
    exact foldl_setdefault_frame es₁ s a (fun h => ha (hsub a h))

theorem setdefaults_frame (x : Variables) (s : Store) (a : Addr) (ha : a ∉ x.dests) :
    x.setdefaults s a = s a :=
  foldl_setdefault_frame x.parameters.entries s a ha

theorem parseParameters_stop (cmd : Command) (ps : Variables) (hps : cmd.Parameters = some ps)
    (args : List String) (s : Store)
    (hstop : args = [] ∨ ∃ r rs, args = r :: rs ∧ ps.parameters.find r = none) :
    parseParameters cmd args s = .done args (ps.setdefaults s) := by
  unfold parseParameters
  rw [hps]
  exact parameterLoop_stop _ _ _ _ hstop

/-- C11, as stated, fails: the two `String` declarations `a` (default `x`) and `b` (default `y`)
name the same destination. After `setdefaults` the destination holds `y`, not the default of
`a`, when the map enumerates `a` first, and holds `x`, not the default of `b`, when the map
enumerates `b` first. -/
theorem setdefaults_shared_destination :
    (Parameters.String "a" "x" "first" 0).bind (fun v => v.String "b" "y" "second" 0) =
        some { parameters := some [("a", paramA), ("b", paramB)] } ∧
      (Variables.mk (some [("a", paramA), ("b", paramB)])).setdefaults world0.store paramA.dest ≠
        paramA.defaultval ∧
      (Variables.mk (some [("b", paramB), ("a", paramA)])).setdefaults world0.store paramB.dest ≠
        paramB.defaultval :=
  ⟨rfl, by decide, by decide⟩

/-- C11, amended: for every variable set in which parameters that share a destination have the
same default (so in particular when the destinations are pairwise distinct), after `setdefaults`
the destination of every registered parameter holds that parameter's default, whatever the store
held before. Consequently, when lenient resolution ends at a command with such a parameter set
and leaves no parameter token (nothing, or words of which the first is not a declared label),
the parameter step consumes nothing and leaves every destination at its default: this is the
store in which `ExecuteWords` returns when the command has no action, and the store it hands to
the action otherwise. -/
theorem setdefaults_all_defaults (x : Variables) (h : x.sharedDefaults) :
    (∀ (s : Store), ∀ e ∈ x.parameters.entries, x.setdefaults s e.2.dest = e.2.defaultval) ∧
    (∀ (t : CommandTree) (words : List String) (cmd : Command) (args : List String)
        (w : World),
      t.findcommand words false = .ok cmd args → cmd.Parameters = some x →
      (args = [] ∨ ∃ r rs, args = r :: rs ∧ x.parameters.find r = none) →
      parseParameters cmd args w.store = .done args (x.setdefaults w.store) ∧
      (cmd.Action = none →
        ∃ err, t.ExecuteWords words w =
          .ret err { store := x.setdefaults w.store, calls := w.calls }) ∧
      (∀ action, cmd.Action = some action →
        t.ExecuteWords words w = .ret (action args (x.setdefaults w.store)).1
          { store := (action args (x.setdefaults w.store)).2,
            calls := w.calls ++ [(cmd.Command, args)] })) := by
  refine ⟨fun s => setdefaults_holds x s h, ?_⟩
  intro t words cmd args w hfind hps hstop
  have hparse := parseParameters_stop cmd x hps args w.store hstop
  refine ⟨hparse, ?_, ?_⟩
  · intro hact
    cases args with
    | nil => exact ⟨none, by simp [CommandTree.ExecuteWords, hfind, hparse, hact]⟩
    | cons a rest =>
      exact ⟨some (.NoSuchCommandError a),
        by simp [CommandTree.ExecuteWords, hfind, hparse, hact]⟩
  · intro action hact
    simp [CommandTree.ExecuteWords, hfind, hparse, hact]

/-- C11, amended, at the parameter set of `greet`: after an earlier run has written `old` to
every variable, `setdefaults` and the execution of `greet` put `anon` into the destination. -/
theorem setdefaults_all_defaults_witness :
    greetVariables.setdefaults worldOld.store 0 = "anon" ∧
      ∃ w' : World, greetTree.ExecuteWords ["greet"] worldOld = .ret none w' ∧
        w'.store 0 = "anon" :=
  ⟨(setdefaults_all_defaults greetVariables (sharedDefaults_of_distinctDests _
      (by unfold Variables.distinctDests; decide))).1 worldOld.store _ (List.mem_singleton.2 rfl),
    _, ((setdefaults_all_defaults greetVariables (sharedDefaults_of_distinctDests _
      (by unfold Variables.distinctDests; decide))).2 greetTree ["greet"] greet [] worldOld
      rfl rfl (Or.inl rfl)).2.2 quiet rfl, rfl⟩

theorem setdefaultsIn_holds (x : Variables) (h : x.sharedDefaults)
    (order : List (String × parameter)) (hperm : order.Perm x.parameters.entries) (s : Store) :
    ∀ e ∈ x.parameters.entries, setdefaultsIn order s e.2.dest = e.2.defaultval := by
  intro e he
  exact foldl_setdefault_holds order s
    (fun a ha b hb => h a (hperm.mem_iff.1 ha) b (hperm.mem_iff.1 hb)) e (hperm.mem_iff.2 he)

theorem setdefaultsIn_frame (x : Variables) (order : List (String × parameter))
    (hperm : order.Perm x.parameters.entries) (s : Store) (a : Addr) (ha : a ∉ x.dests) :
    setdefaultsIn order s a = s a := by
  refine foldl_setdefault_frame order s a (fun hmem => ha ?_)
  exact (hperm.map (fun e => e.2.dest)).mem_iff.1 hmem

/-- C12, as stated, fails: `a` (default `x`) and `b` (default `y`) share the destination 0. A
first call of `setdefaults` that enumerates `a` first leaves `y` there; a second call that
enumerates `b` first leaves `x`: two calls do not leave what one call left. -/
theorem setdefaults_twice_shared_destination :
    [("b", paramB), ("a", paramA)].Perm [("a", paramA), ("b", paramB)] ∧
      setdefaultsIn [("a", paramA), ("b", paramB)] world0.store 0 = "y" ∧
      setdefaultsIn [("b", paramB), ("a", paramA)]
        (setdefaultsIn [("a", paramA), ("b", paramB)] world0.store) 0 = "x" ∧
      setdefaultsIn [("b", paramB), ("a", paramA)]
          (setdefaultsIn [("a", paramA), ("b", paramB)] world0.store) ≠
        setdefaultsIn [("a", paramA), ("b", paramB)] world0.store :=
  ⟨List.Perm.swap _ _ _, rfl, rfl, fun h => absurd (congrFun h 0) (by decide)⟩

/-- C12, amended: `setdefaults` is idempotent for every variable set in which parameters that
share a destination have the same default (so in particular when the destinations are pairwise
distinct). For every store, when a first call enumerates the entries of the map in the order
`o₁` and a second call in the order `o₂`, the two calls leave the store that the first call
left; and every call leaves the same store, whatever its order. -/
theorem setdefaults_idempotent (x : Variables) (s : Store) (o₁ o₂ : List (String × parameter))
    (h₁ : o₁.Perm x.parameters.entries) (h₂ : o₂.Perm x.parameters.entries)
    (hshare : x.sharedDefaults) :
    setdefaultsIn o₂ (setdefaultsIn o₁ s) = setdefaultsIn o₁ s ∧
      setdefaultsIn o₁ s = x.setdefaults s := by
  have once : ∀ (o : List (String × parameter)), o.Perm x.parameters.entries →
      ∀ (s : Store), setdefaultsIn o s = x.setdefaults s := by
    intro o ho s
    funext a
    by_cases ha : a ∈ x.dests
    · obtain ⟨e, he, hea⟩ := List.mem_map.1 ha
      rw [← hea, setdefaultsIn_holds x hshare o ho s e he, setdefaults_holds x s hshare e he]
    · rw [setdefaultsIn_frame x o ho s a ha, setdefaults_frame x s a ha]
  refine ⟨?_, once o₁ h₁ s⟩
  rw [once o₂ h₂, once o₁ h₁]
  exact foldl_setdefault_absorb _ _ s (fun a ha => ha)

/-- C12, amended, at the parameter set of `greet`, and at `a` and `b` with the default of `b`
changed to that of `a`: two calls, also in different orders, leave what one call leaves. -/
theorem setdefaults_idempotent_witness :
    setdefaultsIn greetVariables.parameters.entries
        (setdefaultsIn greetVariables.parameters.entries worldOld.store) =
      setdefaultsIn greetVariables.parameters.entries worldOld.store ∧
    setdefaultsIn [("b", { paramB with defaultval := "x" }), ("a", paramA)]
        (setdefaultsIn [("a", paramA), ("b", { paramB with defaultval := "x" })]
          worldOld.store) =
      setdefaultsIn [("a", paramA), ("b", { paramB with defaultval := "x" })] worldOld.store :=
  ⟨(setdefaults_idempotent greetVariables worldOld.store _ _ (List.Perm.refl _)
      (List.Perm.refl _)
      (sharedDefaults_of_distinctDests _ (by unfold Variables.distinctDests; decide))).1,
    (setdefaults_idempotent
      { parameters := some [("a", paramA), ("b", { paramB with defaultval := "x" })] }
      worldOld.store _ [("b", { paramB with defaultval := "x" }), ("a", paramA)]
      (List.Perm.refl _) (List.Perm.swap _ _ _)
      (by unfold Variables.sharedDefaults; decide)).1⟩

/-! ## Help, empty input and `Execute` -/

theorem findcommandLoop_strict_exact (c : String) (child : Command) (p : List String) :
    ∀ (prev : Option Command) (menu reached : CommandMap),
      menuAfter menu p = some reached → reached.find c = some child →
      findcommandLoop true prev menu (p ++ [c]) = .ok (some child, []) := by
  induction p with
  | nil =>
    intro prev menu reached hm hc
    simp only [menuAfter, Option.some.injEq] at hm
    subst hm
    simp [findcommandLoop, GoMap.len_pos_of_find menu c child hc, hc]
  | cons w p ih =>
    intro prev menu reached hm hc
    cases hw : menu.find w with
    | none => simp [menuAfter, hw] at hm
    | some c₀ =>
      simp only [menuAfter, hw] at hm
      have := ih (some c₀) c₀.subcommands reached hm hc
      simpa [findcommandLoop, GoMap.len_pos_of_find menu w c₀ hw, hw] using this

theorem findcommand_strict_unmatched (x : CommandTree) (p : List String) (u : String)
    (tail : List String) (reached : CommandMap)
    (hm : menuAfter x.Commands p = some reached) (hf : reached.find u = none)
    (hl : p = [] ∨ reached.len > 0) :
    x.findcommand (p ++ u :: tail) true = .err (.NoSuchCommandError u) := by
  by_cases hpos : reached.len > 0
  · simp [CommandTree.findcommand,
      findcommandLoop_strict_error u tail p none x.Commands reached hm hpos hf]
  · rcases hl with hp | hp
    · subst hp
      simp only [menuAfter, Option.some.injEq] at hm
      subst hm
      simp [CommandTree.findcommand, findcommandLoop, hpos]
    · exact absurd hp hpos

/-- C13: `Help` on paths. When `p` (possibly empty) is a valid path, `reached` is the menu at
its end (the top-level menu for the empty path) and `c` is a key of `reached` bound to `child`,
`Help (p ++ [c])` returns nil and a text that starts with the name of `child` followed, on the
next line, by its description. When `w` is not a key of `reached`, and `reached` is non-empty or
`p` is empty, `Help (p ++ [w] ++ rest)` returns the empty text and `NoSuchCommandError` naming
`w`. -/
theorem help_on_paths (x : CommandTree) :
    (∀ (p : List String) (c : String) (reached : CommandMap) (child : Command),
      menuAfter x.Commands p = some reached → reached.find c = some child →
      ∃ tail, x.Help (p ++ [c]) =
        .ret (child.Command ++ "\n   " ++ child.Description ++ tail) none) ∧
    (∀ (p : List String) (w : String) (rest : List String) (reached : CommandMap),
      menuAfter x.Commands p = some reached → reached.find w = none →
      (p = [] ∨ reached.len > 0) →
      x.Help (p ++ [w] ++ rest) = .ret "" (some (.NoSuchCommandError w))) := by
  constructor
  · intro p c reached child hm hc
    have hfind : x.findcommand (p ++ [c]) true = .ok child [] := by
      simp [CommandTree.findcommand,
        findcommandLoop_strict_exact c child p none x.Commands reached hm hc]
    refine ⟨(if child.Usage ≠ "" then "\n   " ++ child.Usage else "") ++
      helpParameters child ++ helpSubcommands child, ?_⟩
    simp only [CommandTree.Help, hfind, String.append_assoc]
  · intro p w rest reached hm hf hl
    have hfind := findcommand_strict_unmatched x p w rest reached hm hf hl
    rw [List.append_assoc, List.singleton_append]
    simp [CommandTree.Help, hfind]

/-- C13 at `menuTree`: the help for `menu greet` starts with `greet` and its description, and
the help for `menu gree more` fails naming `gree`. -/
theorem help_on_paths_witness :
    (∃ tail, menuTree.Help (["menu"] ++ ["greet"]) =
      .ret (greet.Command ++ "\n   " ++ greet.Description ++ tail) none) ∧
    menuTree.Help (["menu"] ++ ["gree"] ++ ["more"]) =
      .ret "" (some (.NoSuchCommandError "gree")) :=
  ⟨(help_on_paths menuTree).1 ["menu"] "greet" menu.subcommands greet rfl rfl,
    (help_on_paths menuTree).2 ["menu"] "gree" ["more"] menu.subcommands rfl rfl
      (Or.inr (by decide))⟩

/-- C14, the code at the failing input: for every tree, `findcommand` on the empty word sequence
leaves its loop at once with no command matched and reads `words[0]` of the empty sequence, so
it panics, in both modes, and `ExecuteWords` and `Help` panic with it. On a non-empty word
sequence `findcommand` does not panic. -/
theorem findcommand_empty_words_panics (x : CommandTree) (w : World) :
    x.findcommand [] true = .panic ∧ x.findcommand [] false = .panic ∧
      x.ExecuteWords [] w = .panic w ∧ x.Help [] = .panic ∧
      ∀ (strict : Bool) (u : String) (us : List String),
        x.findcommand (u :: us) strict ≠ .panic := by
  refine ⟨rfl, rfl, rfl, rfl, ?_⟩
  intro strict u us
  have key : ∀ (ws : List String) (prev : Option Command) (menu : CommandMap) (v : String)
      (rest : List String),
      findcommandLoop strict prev menu (v :: ws) = .ok (none, rest) → rest ≠ [] := by
    intro ws
    induction ws with
    | nil =>
      intro prev menu v rest h
      by_cases hl : menu.len > 0
      · cases hf : menu.find v with
        | none =>
          cases strict <;> simp [findcommandLoop, hl, hf] at h
          rw [← h.2]; simp
        | some c => simp [findcommandLoop, hl, hf] at h
      · simp [findcommandLoop, hl] at h
        rw [← h.2]; simp
    | cons v' ws ih =>
      intro prev menu v rest h
      by_cases hl : menu.len > 0
      · cases hf : menu.find v with
        | none =>
          cases strict <;> simp [findcommandLoop, hl, hf] at h
          rw [← h.2]; simp
        | some c =>
          have step : findcommandLoop strict prev menu (v :: v' :: ws) =
              findcommandLoop strict (some c) c.subcommands (v' :: ws) := by
            simp [findcommandLoop, hl, hf]
          rw [step] at h
          have hsome : ∀ (ws : List String) (cmd : Command) (menu : CommandMap)
              (rest : List String),
              findcommandLoop strict (some cmd) menu ws ≠ .ok (none, rest) := by
            intro ws
            induction ws with
            | nil => intro cmd menu rest h; simp [findcommandLoop] at h
            | cons a t iht =>
              intro cmd menu rest h
              by_cases hl : menu.len > 0
              · cases hf : menu.find a with
                | none => cases strict <;> simp [findcommandLoop, hl, hf] at h
                | some c' =>
                  simp only [findcommandLoop, hl, hf, if_true] at h
                  exact iht c' _ rest h
              · simp [findcommandLoop, hl] at h
          exact absurd h (hsome _ c _ rest)
      · simp [findcommandLoop, hl] at h
        rw [← h.2]; simp
  intro hp
  cases hloop : findcommandLoop strict none x.Commands (u :: us) with
  | error e => simp [CommandTree.findcommand, hloop] at hp
  | ok r =>
    obtain ⟨prev, rest⟩ := r
    cases prev with
    | some c => simp [CommandTree.findcommand, hloop] at hp
    | none =>
      cases rest with
      | nil => exact key us none x.Commands u [] hloop rfl
      | cons a t => simp [CommandTree.findcommand, hloop] at hp

/-- C15: `Execute` with the tokenizer `split`. When `split` returns an error, `Execute` returns
it and leaves the world as it was; when `split` returns no word and no error, `Execute` returns
nil and leaves the world as it was; otherwise `Execute` is `ExecuteWords` on the words that
`split` returns. -/
theorem execute_delegates (split : Splitter) (x : CommandTree) (line : String) (w : World) :
    (∀ words e, split line = (words, some e) → x.Execute split line w = .ret (some e) w) ∧
    (split line = ([], none) → x.Execute split line w = .ret none w) ∧
    (∀ words, words ≠ [] → split line = (words, none) →
      x.Execute split line w = x.ExecuteWords words w) := by
  refine ⟨?_, ?_, ?_⟩
  · intro words e h
    simp [CommandTree.Execute, h]
  · intro h
    simp [CommandTree.Execute, h]
  · intro words hne h
    cases words with
    | nil => exact absurd rfl hne
    | cons a t => simp [CommandTree.Execute, h]

/-- C15 at `greetTree` and the tokenizer `splitExample`: a rejected line returns the error of
the tokenizer, the empty line returns nil, and `greet name Alice hello` runs `ExecuteWords` on
its four words. -/
theorem execute_delegates_witness :
    greetTree.Execute splitExample "unbalanced" world0 =
        .ret (some (.external "syntax error")) world0 ∧
      greetTree.Execute splitExample "" world0 = .ret none world0 ∧
      greetTree.Execute splitExample "greet name Alice hello" world0 =
        greetTree.ExecuteWords ["greet", "name", "Alice", "hello"] world0 :=
  ⟨(execute_delegates splitExample greetTree "unbalanced" world0).1 [] _ (by decide),
    (execute_delegates splitExample greetTree "" world0).2.1 (by decide),
    (execute_delegates splitExample greetTree "greet name Alice hello" world0).2.2
      ["greet", "name", "Alice", "hello"] (by decide) (by decide)⟩

/-! ## Declarations -/

theorem entriesSet_mem {α : Type} (es : List (String × α)) (k : String) (v : α) :
    (es.map Prod.fst).Nodup → ∀ e ∈ entriesSet es k v, e = (k, v) ∨ (e ∈ es ∧ e.1 ≠ k) := by
  induction es with
  | nil =>
    intro _ e he
    simp only [entriesSet, List.mem_singleton] at he
    exact Or.inl he
  | cons e₀ rest ih =>
    intro hnd e he
    obtain ⟨k₀, v₀⟩ := e₀
    simp only [List.map_cons, List.nodup_cons] at hnd
    by_cases hk : k₀ = k
    · simp only [entriesSet, hk, if_true, List.mem_cons] at he
      rcases he with he | he
      · exact Or.inl he
      · refine Or.inr ⟨List.mem_cons_of_mem _ he, fun h => hnd.1 ?_⟩
        rw [hk, ← h]
        exact List.mem_map_of_mem Prod.fst he
    · simp only [entriesSet, hk, if_false, List.mem_cons] at he
      rcases he with he | he
      · refine Or.inr ⟨by rw [he]; exact List.mem_cons_self _ _, ?_⟩
        rw [he]
        exact hk
      · rcases ih hnd.2 e he with h | ⟨h, hne⟩
        · exact Or.inl h
        · exact Or.inr ⟨List.mem_cons_of_mem _ h, hne⟩

theorem entriesSet_has {α : Type} (es : List (String × α)) (k : String) (v : α) :
    (k, v) ∈ entriesSet es k v := by
  induction es with
  | nil => simp [entriesSet]
  | cons e₀ rest ih =>
    obtain ⟨k₀, v₀⟩ := e₀
    by_cases hk : k₀ = k
    · simp [entriesSet, hk]
    · simp only [entriesSet, hk, if_false]
      exact List.mem_cons_of_mem _ ih

theorem entriesSet_keys_nodup {α : Type} (es : List (String × α)) (k : String) (v : α) :
    (es.map Prod.fst).Nodup → ((entriesSet es k v).map Prod.fst).Nodup := by
  induction es with
  | nil => intro _; simp [entriesSet]
  | cons e₀ rest ih =>
    intro hnd
    obtain ⟨k₀, v₀⟩ := e₀
    have hnd' := hnd
    simp only [List.map_cons, List.nodup_cons] at hnd
    by_cases hk : k₀ = k
    · simpa [entriesSet, hk] using hnd'
    · simp only [entriesSet, hk, if_false, List.map_cons, List.nodup_cons]
      refine ⟨fun hmem => ?_, ih hnd.2⟩
      obtain ⟨e, he, hke⟩ := List.mem_map.1 hmem
      rcases entriesSet_mem rest k v hnd.2 e he with h | ⟨h, _⟩
      · rw [h] at hke
        exact hk hke.symm
      · exact hnd.1 (hke ▸ List.mem_map_of_mem Prod.fst h)

theorem entriesSet_entriesSet {α : Type} (es : List (String × α)) (k : String) (v v' : α) :
    entriesSet (entriesSet es k v) k v' = entriesSet es k v' := by
  induction es with
  | nil => simp [entriesSet]
  | cons e₀ rest ih =>
    obtain ⟨k₀, v₀⟩ := e₀
    by_cases hk : k₀ = k
    · simp [entriesSet, hk]
    · simp [entriesSet, hk, ih]

/-- C16, as stated, fails: the zero value of `Variables` has a nil map, and `String` on it
panics on the assignment into the map instead of returning the set. -/
theorem string_on_nil_map_panics :
    zeroVariables.String "a" "x" "first" 0 = none ∧ zeroVariables.parameters = none :=
  ⟨rfl, rfl⟩

/-- C16, amended: for every variable set whose map is allocated, as `Parameters` allocates it
(its keys are distinct, as in every map), `String` returns the set with the entry for `label`
bound to the parameter with this label, default, description and destination, and with every
other key bound as before; the keys stay distinct. Declaring the label again does not fail and
replaces the entry: the set is then the one that the second declaration alone gives. After a
declaration, parsing `label v` writes `v` to the declared destination, and `setdefaults` writes
no address other than the declared destination and the destinations of the other labels, and
writes the declared default to the declared destination when no other label has this
destination. -/
theorem string_registers (es : List (String × parameter)) (label defaultval description : String)
    (ref : Addr) (hkeys : (es.map Prod.fst).Nodup) :
    ∃ y : Variables,
      (Variables.mk (some es)).String label defaultval description ref = some y ∧
      y.parameters.find label = some
        { label := label, defaultval := defaultval, description := description, dest := ref } ∧
      (∀ k, k ≠ label → y.parameters.find k = entriesGet es k) ∧
      (y.parameters.entries.map Prod.fst).Nodup ∧
      (∀ defaultval₂ description₂ ref₂,
        y.String label defaultval₂ description₂ ref₂ =
          (Variables.mk (some es)).String label defaultval₂ description₂ ref₂) ∧
      (∀ (v : String) (s : Store) (fuel : Nat),
        parameterLoop y.parameters (fuel + 2) [label, v] s = .done [] (Store.write s ref v)) ∧
      (∀ (s : Store) (a : Addr), a ≠ ref → (∀ e ∈ es, e.1 ≠ label → e.2.dest ≠ a) →
        y.setdefaults s a = s a) ∧
      (∀ (s : Store), (∀ e ∈ es, e.1 ≠ label → e.2.dest ≠ ref) →
        y.setdefaults s ref = defaultval) := by
  let p : parameter :=
    { label := label, defaultval := defaultval, description := description, dest := ref }
  have hfind : entriesGet (entriesSet es label p) label = some p := by
    rw [entriesGet_entriesSet]; simp
  refine ⟨{ parameters := some (entriesSet es label p) }, rfl, hfind, ?_, ?_, ?_, ?_, ?_, ?_⟩
  · intro k hk
    show entriesGet (entriesSet es label p) k = entriesGet es k
    rw [entriesGet_entriesSet]
    simp [Ne.symm hk]
  · exact entriesSet_keys_nodup es label p hkeys
  · intro d₂ desc₂ r₂
    simp [Variables.String, entriesSet_entriesSet]
  · intro v s fuel
    have hfind' : GoMap.find (some (entriesSet es label p)) label = some p := hfind
    simp [parameterLoop, hfind', stringparameter.parse, p]
  · intro s a ha hothers
    refine setdefaults_frame _ s a (fun hmem => ?_)
    obtain ⟨e, he, hea⟩ := List.mem_map.1 hmem
    rcases entriesSet_mem es label p hkeys e he with h | ⟨h, hne⟩
    · rw [h] at hea
      exact ha hea.symm
    · exact hothers e h hne hea
  · intro s hothers
    have hshare : ∀ e ∈ entriesSet es label p, e.2.dest = ref → e.2.defaultval = defaultval := by
      intro e he hd
      rcases entriesSet_mem es label p hkeys e he with h | ⟨h, hne⟩
      · rw [h]
      · exact absurd hd (hothers e h hne)
    have hval : ∀ (l : List (String × parameter)) (s : Store), (label, p) ∈ l →
        (∀ e ∈ l, e.2.dest = ref → e.2.defaultval = defaultval) →
        (l.foldl (fun s e => e.2.setdefault s) s) ref = defaultval := by
      intro l
      induction l using List.reverseRecOn with
      | nil => intro s hm _; simp at hm
      | append_singleton init last ih =>
        intro s hm hsh
        rw [List.foldl_append]
        simp only [List.foldl_cons, List.foldl_nil, stringparameter.setdefault]
        by_cases hd : last.2.dest = ref
        · rw [← hd, Store.write_same]
          exact hsh last (by simp) hd
        · rw [Store.write_other _ _ _ _ (fun h => hd h.symm)]
          have hm' : (label, p) ∈ init := by
            rcases List.mem_append.1 hm with h | h
            · exact h
            · simp only [List.mem_singleton] at h
              exact absurd (by rw [← h]) hd
          exact ih s hm' (fun e he => hsh e (List.mem_append_left _ he))
    exact hval _ s (entriesSet_has es label p) hshare

/-- C16, amended, at the set of `Parameters`: after `name` is declared twice, the label is bound
to the second declaration, parsing `name Bob` writes `Bob` to the second destination, and
`setdefaults` writes the second default there and leaves the first destination alone. -/
theorem string_registers_witness :
    ∃ y : Variables,
      (Parameters.String "name" "anon" "first" 0).bind
        (fun v => v.String "name" "nobody" "second" 1) = some y ∧
      y.parameters.find "name" = some
        { label := "name", defaultval := "nobody", description := "second", dest := 1 } ∧
      parameterLoop y.parameters 2 ["name", "Bob"] worldOld.store =
        .done [] (Store.write worldOld.store 1 "Bob") ∧
      y.setdefaults worldOld.store 0 = "old" ∧ y.setdefaults worldOld.store 1 = "nobody" := by
  obtain ⟨y, hy, hfind, _, _, _, hparse, hframe, hdef⟩ :=
    string_registers [] "name" "nobody" "second" 1 (by decide)
  exact ⟨y, hy, hfind, hparse "Bob" worldOld.store 0,
    hframe worldOld.store 0 (by decide) (by simp), hdef worldOld.store (by simp)⟩

/-! ## What a dispatch writes -/

theorem parameterLoop_frame (parameters : GoMap parameter) (a : Addr)
    (ha : a ∉ parameters.entries.map (fun e => e.2.dest)) :
    ∀ (fuel : Nat) (args : List String) (s : Store),
      (parameterLoop parameters fuel args s).store s a = s a := by
  intro fuel
  induction fuel with
  | zero => intro args s; rfl
  | succ n ih =>
    intro args s
    cases args with
    | nil => rfl
    | cons p rest =>
      cases hf : parameters.find p with
      | none => simp [parameterLoop, hf, Parsed.store]
      | some v =>
        cases rest with
        | nil => simp [parameterLoop, hf, stringparameter.parse, Parsed.store]
        | cons b rest' =>
          have hva : a ≠ v.dest := by
            intro h
            apply ha
            rw [h]
            exact List.mem_map_of_mem (fun e => e.2.dest) (entriesGet_mem _ _ _ hf)
          have hstep : parameterLoop parameters (n + 1) (p :: b :: rest') s =
              parameterLoop parameters n rest' (Store.write s v.dest b) := by
            simp [parameterLoop, hf, stringparameter.parse]
          have hih := ih rest' (Store.write s v.dest b)
          rw [hstep]
          rw [Store.write_other _ _ _ _ hva] at hih
          rw [← hih]
          cases parameterLoop parameters n rest' (Store.write s v.dest b) with
          | done l s' => rfl
          | fail e s' => rfl
          | nofuel => simp [Parsed.store, Store.write_other _ _ _ _ hva]

theorem parseParameters_frame (cmd : Command) (args : List String) (s : Store) (a : Addr)
    (ha : a ∉ commandDests cmd) : (parseParameters cmd args s).store s a = s a := by
  unfold parseParameters
  unfold commandDests at ha
  cases hps : cmd.Parameters with
  | none => rfl
  | some ps =>
    rw [hps] at ha
    have h1 := parameterLoop_frame ps.parameters a ha (args.length + 1) args (ps.setdefaults s)
    have h2 := setdefaults_frame ps s a ha
    have h3 := parameterLoop_fuel ps.parameters (args.length + 1) args (ps.setdefaults s)
      (Nat.lt_succ_self _)
    simp only
    cases hloop : parameterLoop ps.parameters (args.length + 1) args (ps.setdefaults s) with
    | done l s' =>
      rw [hloop] at h1
      simp only [Parsed.store] at h1 ⊢
      rw [h1, h2]
    | fail e s' =>
      rw [hloop] at h1
      simp only [Parsed.store] at h1 ⊢
      rw [h1, h2]
    | nofuel => exact absurd hloop h3

theorem executeWords_of_found (x : CommandTree) (words : List String) (cmd : Command)
    (args : List String) (w : World) (hfind : x.findcommand words false = .ok cmd args) :
    ∃ s' : Store, (∀ a, a ∉ commandDests cmd → s' a = w.store a) ∧
      ((∃ err, x.ExecuteWords words w = .ret err { store := s', calls := w.calls }) ∨
        (∃ action left, cmd.Action = some action ∧
          x.ExecuteWords words w = .ret (action left s').1
            { store := (action left s').2, calls := w.calls ++ [(cmd.Command, left)] })) := by
  have hframe := fun a ha => parseParameters_frame cmd args w.store a ha
  cases hparse : parseParameters cmd args w.store with
  | nofuel => exact absurd hparse (parseParameters_ne_nofuel cmd args w.store)
  | fail e s =>
    rw [hparse] at hframe
    exact ⟨s, hframe, Or.inl ⟨some e, by simp [CommandTree.ExecuteWords, hfind, hparse]⟩⟩
  | done left s =>
    rw [hparse] at hframe
    refine ⟨s, hframe, ?_⟩
    cases hact : cmd.Action with
    | none =>
      cases left with
      | nil => exact Or.inl ⟨none, by simp [CommandTree.ExecuteWords, hfind, hparse, hact]⟩
      | cons a t =>
        exact Or.inl ⟨some (.NoSuchCommandError a),
          by simp [CommandTree.ExecuteWords, hfind, hparse, hact]⟩
    | some action =>
      exact Or.inr ⟨action, left, rfl,
        by simp [CommandTree.ExecuteWords, hfind, hparse, hact]⟩

/-- C17: `ExecuteWords` writes only destinations of the resolved command. When resolution fails
the world is left as it was. When lenient resolution ends at `cmd`, there is a store `s'` that
agrees with the store before the call at every address that is not a destination of a parameter
of `cmd` (so at the destinations of the ancestors and of every other command that are distinct
from those of `cmd`: they are neither reset nor assigned), and `ExecuteWords` either returns in
`s'` without an invocation, or invokes the action of `cmd` once, in `s'`, and returns what the
action returns and the store that the action leaves. -/
theorem executeWords_frame (x : CommandTree) (words : List String) (w : World) :
    (∀ e, x.findcommand words false = .err e → x.ExecuteWords words w = .ret (some e) w) ∧
    (∀ cmd args, x.findcommand words false = .ok cmd args →
      ∃ s' : Store, (∀ a, a ∉ commandDests cmd → s' a = w.store a) ∧
        ((∃ err, x.ExecuteWords words w = .ret err { store := s', calls := w.calls }) ∨
          (∃ action left, cmd.Action = some action ∧
            x.ExecuteWords words w = .ret (action left s').1
              { store := (action left s').2,
                calls := w.calls ++ [(cmd.Command, left)] }))) := by
  constructor
  · intro e h
    simp [CommandTree.ExecuteWords, h]
  · intro cmd args h
    exact executeWords_of_found x words cmd args w h

/-- C17 at `shadowTree`: `shadow greet name Alice` resolves to the subcommand `greet`; the
destination 5 of the parameter of the ancestor `shadow` is not a destination of `greet`, and the
store handed to the action of `greet` agrees there with the store before the call. -/
theorem executeWords_frame_witness :
    ∃ s' : Store, (∀ a, a ∉ commandDests greet → s' a = worldOld.store a) ∧
      ((∃ err, shadowTree.ExecuteWords ["shadow", "greet", "name", "Alice"] worldOld =
          .ret err { store := s', calls := worldOld.calls }) ∨
        (∃ action left, greet.Action = some action ∧
          shadowTree.ExecuteWords ["shadow", "greet", "name", "Alice"] worldOld =
            .ret (action left s').1
              { store := (action left s').2,
                calls := worldOld.calls ++ [(greet.Command, left)] })) :=
  (executeWords_frame shadowTree ["shadow", "greet", "name", "Alice"] worldOld).2 greet
    ["name", "Alice"] rfl

/-! ## Subcommands before parameters -/

theorem findcommandLoop_descend (strict : Bool) (cmd : Command) (tail : List String)
    (path : List String) :
    ∀ (prev : Option Command) (menu : CommandMap), nodeAt menu path = some cmd →
      findcommandLoop strict prev menu (path ++ tail) =
        findcommandLoop strict (some cmd) cmd.subcommands tail := by
  induction path with
  | nil => intro prev menu h; simp [nodeAt] at h
  | cons w p ih =>
    intro prev menu h
    cases p with
    | nil =>
      simp only [nodeAt] at h
      simp [findcommandLoop, GoMap.len_pos_of_find menu w cmd h, h]
    | cons w' ws =>
      cases hw : menu.find w with
      | none => simp [nodeAt, hw] at h
      | some c =>
        simp only [nodeAt, hw] at h
        have := ih (some c) c.subcommands h
        simpa [findcommandLoop, GoMap.len_pos_of_find menu w c hw, hw] using this

theorem findcommand_descend (x : CommandTree) (path : List String) (cmd sub : Command)
    (w : String) (rest : List String) (strict : Bool)
    (hnode : nodeAt x.Commands path = some cmd) (hsub : cmd.subcommands.find w = some sub) :
    x.findcommand (path ++ w :: rest) strict =
        (CommandTree.mk cmd.subcommands).findcommand (w :: rest) strict ∧
      findcommandLoop strict none x.Commands (path ++ w :: rest) =
        findcommandLoop strict (some sub) sub.subcommands rest := by
  have hpos := GoMap.len_pos_of_find cmd.subcommands w sub hsub
  have h1 := findcommandLoop_descend strict cmd (w :: rest) path none x.Commands hnode
  have h2 : findcommandLoop strict (some cmd) cmd.subcommands (w :: rest) =
      findcommandLoop strict (some sub) sub.subcommands rest := by
    simp [findcommandLoop, hpos, hsub]
  have h3 : findcommandLoop strict none cmd.subcommands (w :: rest) =
      findcommandLoop strict (some sub) sub.subcommands rest := by
    simp [findcommandLoop, hpos, hsub]
  refine ⟨?_, h1.trans h2⟩
  simp only [CommandTree.findcommand]
  rw [h1, h2, h3]

theorem findcommandLoop_from_some (strict : Bool) (ws : List String) :
    ∀ (c : Command) (menu : CommandMap),
      (∃ e, findcommandLoop strict (some c) menu ws = .error e) ∨
      (∃ cmd rest, findcommandLoop strict (some c) menu ws = .ok (some cmd, rest)) := by
  induction ws with
  | nil => intro c menu; exact Or.inr ⟨c, [], rfl⟩
  | cons a t ih =>
    intro c menu
    by_cases hl : menu.len > 0
    · cases hf : menu.find a with
      | none =>
        cases strict
        · exact Or.inr ⟨c, a :: t, by simp [findcommandLoop, hl, hf]⟩
        · exact Or.inl ⟨.NoSuchCommandError a, by simp [findcommandLoop, hl, hf]⟩
      | some c' =>
        have := ih c' c'.subcommands
        simpa [findcommandLoop, hl, hf] using this
    · exact Or.inr ⟨c, a :: t, by simp [findcommandLoop, hl]⟩

/-- C18: subcommand names shadow parameter labels. Let `path` be a valid path to `cmd` and `w`
the name of the subcommand `sub` of `cmd`, whether or not `w` is also a declared label of `cmd`.
Then resolution of `path ++ [w] ++ rest` continues with `sub` and the whole of `rest`: it ends
at the command `cmd'` and with the words `args` at which the walk from `sub` over `rest` ends,
so the word after `w` is not taken as a value. `ExecuteWords` on these words is `ExecuteWords`
on `[w] ++ rest` in the tree of the subcommands of `cmd`, in which the parameters of `cmd` do
not occur, and it writes no address other than the destinations of `cmd'`: the parameters of
`cmd` are neither reset nor parsed. -/
theorem subcommand_shadows_label (x : CommandTree) (path : List String) (cmd sub : Command)
    (w : String) (rest : List String) (world : World)
    (hnode : nodeAt x.Commands path = some cmd) (hsub : cmd.subcommands.find w = some sub) :
    x.ExecuteWords (path ++ [w] ++ rest) world =
        (CommandTree.mk cmd.subcommands).ExecuteWords ([w] ++ rest) world ∧
      ∃ cmd' args, x.findcommand (path ++ [w] ++ rest) false = .ok cmd' args ∧
        findcommandLoop false (some sub) sub.subcommands rest = .ok (some cmd', args) ∧
        ∃ s' : Store, (∀ a, a ∉ commandDests cmd' → s' a = world.store a) ∧
          ((∃ err, x.ExecuteWords (path ++ [w] ++ rest) world =
              .ret err { store := s', calls := world.calls }) ∨
            (∃ action left, cmd'.Action = some action ∧
              x.ExecuteWords (path ++ [w] ++ rest) world = .ret (action left s').1
                { store := (action left s').2,
                  calls := world.calls ++ [(cmd'.Command, left)] })) := by
  rw [List.append_assoc, List.singleton_append]
  obtain ⟨hfind, hloop⟩ := findcommand_descend x path cmd sub w rest false hnode hsub
  constructor
  · simp only [CommandTree.ExecuteWords, hfind]
  · rcases findcommandLoop_from_some false rest sub sub.subcommands with ⟨e, he⟩ | ⟨cmd', args, h⟩
    · exfalso
      have hlen : ∀ (ws : List String) (c : Command) (menu : CommandMap) (e : Error),
          findcommandLoop false (some c) menu ws ≠ .error e := by
        intro ws
        induction ws with
        | nil => intro c menu e h; simp [findcommandLoop] at h
        | cons a t iht =>
          intro c menu e h
          by_cases hl : menu.len > 0
          · cases hf : menu.find a with
            | none => simp [findcommandLoop, hl, hf] at h
            | some c' =>
              simp only [findcommandLoop, hl, hf, if_true] at h
              exact iht c' _ e h
          · simp [findcommandLoop, hl] at h
      exact hlen rest sub _ e he
    · have hfound : x.findcommand (path ++ w :: rest) false = .ok cmd' args := by
        simp [CommandTree.findcommand, hloop, h]
      exact ⟨cmd', args, hfound, h,
        executeWords_of_found x (path ++ w :: rest) cmd' args world hfound⟩

/-- C18 at `shadowTree`, where `greet` is both a subcommand and a declared label of `shadow`:
`shadow greet name Alice` runs the subcommand `greet` with `name Alice`; the destination 5 of
the label `greet` keeps what it held, and `Alice` goes to the destination of `name`. -/
theorem subcommand_shadows_label_witness :
    shadow.Parameters.bind (fun ps => ps.parameters.find "greet") ≠ none ∧
      ∃ w' : World, shadowTree.ExecuteWords (["shadow"] ++ ["greet"] ++ ["name", "Alice"])
          worldOld = .ret none w' ∧
        w'.calls = [("greet", [])] ∧ w'.store 5 = "old" ∧ w'.store 0 = "Alice" := by
  have h := (subcommand_shadows_label shadowTree ["shadow"] shadow greet "greet"
    ["name", "Alice"] worldOld rfl rfl).1
  exact ⟨by decide, _, h.trans rfl, rfl, rfl, rfl⟩

/-! ## Strict and lenient resolution -/

theorem findcommandLoop_strict_to_lenient (ws : List String) :
    ∀ (prev : Option Command) (menu : CommandMap) (r : Option Command × List String),
      findcommandLoop true prev menu ws = .ok r → findcommandLoop false prev menu ws = .ok r := by
  induction ws with
  | nil => intro prev menu r h; simpa [findcommandLoop] using h
  | cons a t ih =>
    intro prev menu r h
    by_cases hl : menu.len > 0
    · cases hf : menu.find a with
      | none => simp [findcommandLoop, hl, hf] at h
      | some c =>
        simp only [findcommandLoop, hl, hf, if_true] at h ⊢
        exact ih (some c) c.subcommands r h
    · simpa [findcommandLoop, hl] using h

theorem findcommand_first_unknown (x : CommandTree) (w : String) (ws : List String)
    (strict : Bool) (h : x.Commands.find w = none) :
    x.findcommand (w :: ws) strict = .err (.NoSuchCommandError w) := by
  by_cases hl : x.Commands.len > 0 <;> cases strict <;>
    simp [CommandTree.findcommand, findcommandLoop, hl, h]

/-- C19: strict and lenient resolution agree wherever strict resolution succeeds. For a
non-empty word sequence, when strict `findcommand` returns `cmd` and `rest`, lenient
`findcommand` returns the same `cmd` and `rest`; lenient `findcommand` returns an error exactly
when the first word is not the name of a top-level command, and then both modes return
`NoSuchCommandError` naming the first word. -/
theorem strict_lenient_agree (x : CommandTree) (w : String) (ws : List String) :
    (∀ cmd rest, x.findcommand (w :: ws) true = .ok cmd rest →
      x.findcommand (w :: ws) false = .ok cmd rest) ∧
    ((∃ e, x.findcommand (w :: ws) false = .err e) ↔ x.Commands.find w = none) ∧
    (x.Commands.find w = none →
      x.findcommand (w :: ws) false = .err (.NoSuchCommandError w) ∧
      x.findcommand (w :: ws) true = .err (.NoSuchCommandError w)) := by
  refine ⟨?_, ?_, ?_⟩
  · intro cmd rest h
    cases hloop : findcommandLoop true none x.Commands (w :: ws) with
    | error e => simp [CommandTree.findcommand, hloop] at h
    | ok r =>
      have hlen := findcommandLoop_strict_to_lenient (w :: ws) none x.Commands r hloop
      simp only [CommandTree.findcommand, hloop] at h
      simp only [CommandTree.findcommand, hlen]
      exact h
  · constructor
    · rintro ⟨e, he⟩
      cases hf : x.Commands.find w with
      | none => rfl
      | some c =>
        obtain ⟨path, rest, cmd, hloop, _⟩ := findcommandLoop_lenient ws none x.Commands w c hf
        simp [CommandTree.findcommand, hloop] at he
    · intro h
      exact ⟨_, findcommand_first_unknown x w ws false h⟩
  · intro h
    exact ⟨findcommand_first_unknown x w ws false h, findcommand_first_unknown x w ws true h⟩

/-- C19 at `menuTree`: `menu greet` resolves to `greet` with nothing left in both modes, and
`gree` is refused in both modes. -/
theorem strict_lenient_agree_witness :
    menuTree.findcommand ["menu", "greet"] false = .ok greet [] ∧
      greetTree.findcommand ["gree"] false = .err (.NoSuchCommandError "gree") ∧
      greetTree.findcommand ["gree"] true = .err (.NoSuchCommandError "gree") :=
  ⟨(strict_lenient_agree menuTree "menu" ["greet"]).1 greet [] rfl,
    (strict_lenient_agree greetTree "gree" []).2.2 rfl⟩

/-! ## Termination -/

theorem findcommandIterations_le (strict : Bool) (words : List String) :
    ∀ (menu : CommandMap), findcommandIterations strict menu words ≤ words.length := by
  induction words with
  | nil => intro menu; simp [findcommandIterations]
  | cons a t ih =>
    intro menu
    by_cases hl : menu.len > 0
    · cases hf : menu.find a with
      | none => simp [findcommandIterations, hl, hf]
      | some c =>
        have := ih c.subcommands
        simpa [findcommandIterations, hl, hf] using this
    · simp [findcommandIterations, hl]

theorem findcommandLoop_consumed (strict : Bool) (words : List String) :
    ∀ (prev : Option Command) (menu : CommandMap) (r : Option Command × List String),
      findcommandLoop strict prev menu words = .ok r →
      ∃ path, words = path ++ r.2 ∧ path.length = findcommandIterations strict menu words := by
  induction words with
  | nil =>
    intro prev menu r h
    simp only [findcommandLoop, Except.ok.injEq] at h
    exact ⟨[], by simp [← h], by simp [findcommandIterations]⟩
  | cons a t ih =>
    intro prev menu r h
    by_cases hl : menu.len > 0
    · cases hf : menu.find a with
      | none =>
        cases strict
        · simp only [findcommandLoop, hl, hf, if_true, Bool.false_eq_true, if_false,
            Except.ok.injEq] at h
          exact ⟨[], by simp [← h], by simp [findcommandIterations, hl, hf]⟩
        · simp [findcommandLoop, hl, hf] at h
      | some c =>
        simp only [findcommandLoop, hl, hf, if_true] at h
        obtain ⟨path, hsplit, hlen⟩ := ih (some c) c.subcommands r h
        exact ⟨a :: path, by simp [← hsplit], by simp [findcommandIterations, hl, hf, hlen]⟩
    · simp only [findcommandLoop, hl, if_false, Except.ok.injEq] at h
      exact ⟨[], by simp [← h], by simp [findcommandIterations, hl]⟩

theorem parameterLoop_consumed (parameters : GoMap parameter) :
    ∀ (fuel : Nat) (args : List String) (s : Store),
      2 * parameterIterations parameters fuel args s ≤ args.length ∧
      ∀ left s', parameterLoop parameters fuel args s = .done left s' →
        ∃ pairs, args = pairWords pairs ++ left ∧
          pairs.length = parameterIterations parameters fuel args s := by
  intro fuel
  induction fuel with
  | zero =>
    intro args s
    exact ⟨by simp [parameterIterations], fun left s' h => by simp [parameterLoop] at h⟩
  | succ n ih =>
    intro args s
    cases args with
    | nil =>
      refine ⟨by simp [parameterIterations], fun left s' h => ?_⟩
      simp only [parameterLoop, Parsed.done.injEq] at h
      exact ⟨[], by simp [pairWords, ← h.1], by simp [parameterIterations]⟩
    | cons p rest =>
      cases hf : parameters.find p with
      | none =>
        refine ⟨by simp [parameterIterations, hf], fun left s' h => ?_⟩
        simp only [parameterLoop, hf, Parsed.done.injEq] at h
        exact ⟨[], by simp [pairWords, ← h.1], by simp [parameterIterations, hf]⟩
      | some v =>
        cases rest with
        | nil =>
          exact ⟨by simp [parameterIterations, hf, stringparameter.parse],
            fun left s' h => by simp [parameterLoop, hf, stringparameter.parse] at h⟩
        | cons b rest' =>
          obtain ⟨hle, hdone⟩ := ih rest' (Store.write s v.dest b)
          have hit : parameterIterations parameters (n + 1) (p :: b :: rest') s =
              parameterIterations parameters n rest' (Store.write s v.dest b) + 1 := by
            simp [parameterIterations, hf, stringparameter.parse]
          have hloop : parameterLoop parameters (n + 1) (p :: b :: rest') s =
              parameterLoop parameters n rest' (Store.write s v.dest b) := by
            simp [parameterLoop, hf, stringparameter.parse]
          refine ⟨by rw [hit]; simp only [List.length_cons]; omega, fun left s' h => ?_⟩
          rw [hloop] at h
          obtain ⟨pairs, hsplit, hlen⟩ := hdone left s' h
          exact ⟨(p, b) :: pairs, by simp [pairWords, hsplit], by simp [hit, hlen]⟩

/-- C20: both loops of a dispatch terminate and only shorten the input. Count as an iteration a
pass through a loop body that reaches its end (a pass that leaves the loop by `break` or
`return` removes nothing and ends the loop). The loop of `findcommand` makes at most
`len(words)` iterations, and when `findcommand` returns `cmd` and `args`, the words are a
`path` followed by `args`, with one word of `path` for each iteration. The parameter loop of
`ExecuteWords` always ends within its `len(args) + 1` evaluations of the loop condition; when
it is left with the words `left`, `args` is `l1 v1 ... lk vk` followed by `left`, with one pair
for each iteration, so `left` is a suffix of `words`, and it is the list that the action, if
any, is invoked with. The two loops together make at most `len(words)` iterations. -/
theorem loops_shorten_input (x : CommandTree) (words : List String) (w : World) :
    (∀ strict, findcommandIterations strict x.Commands words ≤ words.length) ∧
    (∀ strict cmd args, x.findcommand words strict = .ok cmd args →
      ∃ path, words = path ++ args ∧
        path.length = findcommandIterations strict x.Commands words) ∧
    (∀ cmd args, x.findcommand words false = .ok cmd args →
      parseParameters cmd args w.store ≠ .nofuel ∧
      findcommandIterations false x.Commands words + parseIterations cmd args w.store ≤
        words.length ∧
      ∀ left s, parseParameters cmd args w.store = .done left s →
        (∃ pairs, args = pairWords pairs ++ left ∧
          pairs.length = parseIterations cmd args w.store) ∧
        left <:+ words ∧
        ∀ action, cmd.Action = some action →
          x.ExecuteWords words w = .ret (action left s).1
            { store := (action left s).2, calls := w.calls ++ [(cmd.Command, left)] }) := by
  have hres : ∀ strict cmd args, x.findcommand words strict = .ok cmd args →
      ∃ path, words = path ++ args ∧
        path.length = findcommandIterations strict x.Commands words := by
    intro strict cmd args h
    cases hloop : findcommandLoop strict none x.Commands words with
    | error e => simp [CommandTree.findcommand, hloop] at h
    | ok r =>
      obtain ⟨prev, rest⟩ := r
      cases prev with
      | none => cases rest <;> simp [CommandTree.findcommand, hloop] at h
      | some c =>
        simp only [CommandTree.findcommand, hloop, Found.ok.injEq] at h
        obtain ⟨path, hsplit, hlen⟩ :=
          findcommandLoop_consumed strict words none x.Commands (some c, rest) hloop
        exact ⟨path, by rw [← h.2]; exact hsplit, hlen⟩
  refine ⟨fun strict => findcommandIterations_le strict words x.Commands, hres, ?_⟩
  intro cmd args hfind
  obtain ⟨path, hsplit, hlen⟩ := hres false cmd args hfind
  have hpairs : 2 * parseIterations cmd args w.store ≤ args.length ∧
      ∀ left s, parseParameters cmd args w.store = .done left s →
        ∃ pairs, args = pairWords pairs ++ left ∧
          pairs.length = parseIterations cmd args w.store := by
    unfold parseIterations parseParameters
    cases cmd.Parameters with
    | none =>
      refine ⟨by simp, fun left s h => ?_⟩
      simp only [Parsed.done.injEq] at h
      exact ⟨[], by simp [pairWords, h.1], rfl⟩
    | some ps => exact parameterLoop_consumed ps.parameters _ _ _
  have hwords : words.length = path.length + args.length := by rw [hsplit]; simp
  refine ⟨parseParameters_ne_nofuel cmd args w.store, by omega, ?_⟩
  intro left s hparse
  obtain ⟨pairs, hargs, hcount⟩ := hpairs.2 left s hparse
  refine ⟨⟨pairs, hargs, hcount⟩, ⟨path ++ pairWords pairs, ?_⟩, ?_⟩
  · rw [hsplit, hargs, List.append_assoc]
  · intro action hact
    simp [CommandTree.ExecuteWords, hfind, hparse, hact]

/-- C20 at `greet name Alice hello`: one iteration of the loop of `findcommand` and one of the
parameter loop, and the action receives the suffix `hello`. -/
theorem loops_shorten_input_witness :
    findcommandIterations false greetTree.Commands ["greet", "name", "Alice", "hello"] = 1 ∧
      parseIterations greet ["name", "Alice", "hello"] world0.store = 1 ∧
      ["hello"] <:+ ["greet", "name", "Alice", "hello"] ∧
      ∃ w' : World, greetTree.ExecuteWords ["greet", "name", "Alice", "hello"] world0 =
        .ret none w' ∧ w'.calls = [("greet", ["hello"])] := by
  obtain ⟨_, hsuffix, hrun⟩ :=
    (loops_shorten_input greetTree ["greet", "name", "Alice", "hello"] world0).2.2 greet
      ["name", "Alice", "hello"] rfl |>.2.2 ["hello"] (Store.write (greetVariables.setdefaults
        world0.store) 0 "Alice") rfl
  exact ⟨rfl, rfl, hsuffix, _, hrun quiet rfl, rfl⟩

end commandtree
